import Mathlib

set_option maxHeartbeats 1000000

/-- Earnings buckets of a user, one bucket per attribution level,
with a single shared bucket for levels four and beyond. -/
structure EarningsByLevel where
  level1 : Nat
  level2 : Nat
  level3 : Nat
  level4Plus : Nat
deriving DecidableEq

/-- User record as created by the registration code in auth.js. -/
structure User where
  id : String
  username : String
  email : String
  passwordHash : String
  referralCode : String
  referredBy : Option String
  isAdmin : Bool
  createdAt : Nat
  totalEarnings : Nat
  earningsByLevel : EarningsByLevel
deriving DecidableEq

/-- Immutable referral attribution record appended by awardEarnings. -/
structure Referral where
  id : Nat
  referrerId : String
  referredId : String
  level : Int
  earnings : Nat
  createdAt : Nat
deriving DecidableEq

/-- The persistent store backing the engine: the users table and the
referrals table of the IndexedDB storage manager.  The field nextRefId
models the freshly generated unique identifiers of generateReferralId,
and now models the current wall-clock reading used for createdAt. -/
structure Store where
  users : List User
  referrals : List Referral
  nextRefId : Nat
  now : Nat
deriving DecidableEq

/-- The fixed reward table of the ReferralSystem constructor. -/
structure RewardStructure where
  level1 : Nat
  level2 : Nat
  level3 : Nat
  level4Plus : Nat
deriving DecidableEq

/-- Reward table constants: 100, 60, 40, and a flat 20 for levels four up. -/
def rewardStructure : RewardStructure :=
  { level1 := 100, level2 := 60, level3 := 40, level4Plus := 20 }

/-- Storage lookup of a user by primary key, as in getUserById. -/
def getUserById (s : Store) (uid : String) : Option User :=
  s.users.find? (fun u => u.id == uid)

/-- Storage lookup of a user through the unique referralCode index. -/
def getUserByReferralCode (s : Store) (code : String) : Option User :=
  s.users.find? (fun u => u.referralCode == code)

/-- Storage put on the users table: replaces the record with the same key,
or inserts the record when the key is absent. -/
def updateUser (s : Store) (u : User) : Store :=
  if s.users.any (fun v => v.id == u.id) then
    { s with users := s.users.map (fun v => if v.id == u.id then u else v) }
  else
    { s with users := s.users ++ [u] }

/-- Storage add on the referrals table: appends the new record. -/
def addReferral (s : Store) (r : Referral) : Store :=
  { s with referrals := s.referrals ++ [r] }

/-- Earnings update performed on a fetched referrer inside awardEarnings:
the aggregate accumulator grows by the amount, and the level dispatch
adds the amount to the level1, level2 or level3 bucket, every other
level value falling through to the level4Plus bucket. -/
def applyAward (u : User) (level : Int) (amount : Nat) : User :=
  let e := u.earningsByLevel
  { u with
    totalEarnings := u.totalEarnings + amount,
    earningsByLevel :=
      if level = 1 then { e with level1 := e.level1 + amount }
      else if level = 2 then { e with level2 := e.level2 + amount }
      else if level = 3 then { e with level3 := e.level3 + amount }
      else { e with level4Plus := e.level4Plus + amount } }

/-- Engine operation awardEarnings: fetches the referrer by id and, when
absent, silently does nothing; otherwise persists the updated referrer
and appends one referral record carrying a fresh id and the current
timestamp. -/
def awardEarnings (s : Store) (referrerId referredUserId : String)
    (level : Int) (amount : Nat) : Store :=
  match getUserById s referrerId with
  | none => s
  | some referrer =>
    let s1 := updateUser s (applyAward referrer level amount)
    let referral : Referral :=
      { id := s1.nextRefId, referrerId := referrerId,
        referredId := referredUserId, level := level,
        earnings := amount, createdAt := s1.now }
    { addReferral s1 referral with nextRefId := s1.nextRefId + 1 }

/-- The while loop of processNewReferral distributing the flat reward to
every referrer at levels four and beyond.  The walk is fuelled because
the source loop has no cycle guard; a none result means the fuel ran
out before the chain ended. -/
def level4Loop (s : Store) (newUserId : String) (current : User)
    (level : Int) (fuel : Nat) : Option Store :=
  match fuel with
  | 0 => none
  | f + 1 =>
    match current.referredBy with
    | none => some s
    | some code =>
      match getUserByReferralCode s code with
      | none => some s
      | some next =>
        level4Loop (awardEarnings s next.id newUserId level rewardStructure.level4Plus)
          newUserId next (level + 1) f

/-- Result value of processNewReferral, mirroring the success object and
the catch branch returning the error message. -/
structure ProcessResult where
  store : Store
  success : Bool
  error : Option String
deriving DecidableEq

/-- Error message thrown when the new user record cannot be found. -/
def msgUserNotFound : String := "User not found"

/-- Error message thrown when the referral code resolves to nobody. -/
def msgReferrerNotFound : String := "Referrer not found"

/-- Engine operation processNewReferral: resolves the new user and the
direct referrer, awards level one, then walks the referrer chain
upward awarding level two, level three and the flat amount beyond,
stopping at a missing upstream referrer.  The two initial lookups
failing are the thrown errors caught and reported as failure. -/
def processNewReferral (s : Store) (newUserId referralCode : String)
    (fuel : Nat) : Option ProcessResult :=
  match getUserById s newUserId with
  | none => some { store := s, success := false, error := some msgUserNotFound }
  | some _ =>
    match getUserByReferralCode s referralCode with
    | none => some { store := s, success := false, error := some msgReferrerNotFound }
    | some l1 =>
      let s1 := awardEarnings s l1.id newUserId 1 rewardStructure.level1
      match l1.referredBy with
      | none => some { store := s1, success := true, error := none }
      | some code2 =>
        match getUserByReferralCode s1 code2 with
        | none => some { store := s1, success := true, error := none }
        | some l2 =>
          let s2 := awardEarnings s1 l2.id newUserId 2 rewardStructure.level2
          match l2.referredBy with
          | none => some { store := s2, success := true, error := none }
          | some code3 =>
            match getUserByReferralCode s2 code3 with
            | none => some { store := s2, success := true, error := none }
            | some l3 =>
              let s3 := awardEarnings s2 l3.id newUserId 3 rewardStructure.level3
              match level4Loop s3 newUserId l3 4 fuel with
              | none => none
              | some s4 => some { store := s4, success := true, error := none }

/-- Engine operation getDirectReferrals: every user whose referredBy
field equals the root user's referral code. -/
def getDirectReferrals (s : Store) (userId : String) : List User :=
  match getUserById s userId with
  | none => []
  | some user => s.users.filter (fun u => u.referredBy == some user.referralCode)

/-- Referral tree node: a user together with the trees of the direct
referrals, in store order. -/
inductive RTree where
  | node : User → List RTree → RTree

/-- Children list of a referral tree node. -/
def RTree.children : RTree → List RTree
  | .node _ cs => cs

/-- Sequential construction of the child subtrees, skipping null child
results exactly as the source loop does; the one-level-deeper builder
is passed in explicitly. -/
def buildChildren (rec : String → Option (Option RTree)) :
    List User → Option (List RTree)
  | [] => some []
  | u :: rest =>
    match rec u.id with
    | none => none
    | some none => buildChildren rec rest
    | some (some t) =>
      match buildChildren rec rest with
      | none => none
      | some ts => some (t :: ts)

/-- Fuelled builder underlying buildReferralTree, by recursion on the
fuel: none means the fuel ran out, some none mirrors the null returned
for a missing root user. -/
def buildTreeFun (s : Store) : Nat → String → Option (Option RTree)
  | 0, _ => none
  | f + 1, userId =>
    match getUserById s userId with
    | none => some none
    | some user =>
      match buildChildren (buildTreeFun s f) (getDirectReferrals s userId) with
      | none => none
      | some children => some (some (RTree.node user children))

/-- Engine operation buildReferralTree, fuelled because the source
recursion has no cycle guard. -/
def buildReferralTree (s : Store) (userId : String) (fuel : Nat) :
    Option (Option RTree) :=
  buildTreeFun s fuel userId

/-- Statistics object accumulated by getReferralStats; the per-level
count map is kept in insertion order like the source object. -/
structure Stats where
  directReferrals : Nat
  totalReferrals : Nat
  levels : List (Nat × Nat)
deriving DecidableEq

/-- One increment of the per-level count map of getReferralStats. -/
def bumpLevel : List (Nat × Nat) → Nat → List (Nat × Nat)
  | [], l => [(l, 1)]
  | (k, v) :: rest, l =>
    if k == l then (k, v + 1) :: rest else (k, v) :: bumpLevel rest l

mutual
/-- Depth-first counting walk of getReferralStats: nodes at depth one
bump directReferrals, every node at positive depth bumps
totalReferrals and its per-level counter. -/
def countReferrals (t : RTree) (level : Nat) (stats : Stats) : Stats :=
  match t with
  | .node _ children =>
    let s1 :=
      if level == 1 then
        { stats with directReferrals := stats.directReferrals + 1 }
      else stats
    let s2 :=
      if 0 < level then
        { s1 with totalReferrals := s1.totalReferrals + 1,
                  levels := bumpLevel s1.levels level }
      else s1
    countReferralsList children (level + 1) s2

/-- Left-to-right fold of the counting walk over a child list. -/
def countReferralsList (ts : List RTree) (level : Nat) (stats : Stats) : Stats :=
  match ts with
  | [] => stats
  | t :: rest => countReferralsList rest level (countReferrals t level stats)
end

/-- Engine operation getReferralStats: builds the tree and, when the
root user exists, runs the counting walk from depth zero; for a
missing root user the null tree is propagated as a null result. -/
def getReferralStats (s : Store) (userId : String) (fuel : Nat) :
    Option (Option Stats) :=
  match buildReferralTree s userId fuel with
  | none => none
  | some none => some none
  | some (some tree) =>
    some (some (countReferrals tree 0 { directReferrals := 0, totalReferrals := 0, levels := [] }))

mutual
/-- Node count of getNetworkSize: children plus their recursive counts,
which excludes the root node itself. -/
def countNodes (t : RTree) : Nat :=
  match t with
  | .node _ children => children.length + countNodesList children

/-- Sum of countNodes over a child list. -/
def countNodesList (ts : List RTree) : Nat :=
  match ts with
  | [] => 0
  | t :: rest => countNodes t + countNodesList rest
end

/-- Engine operation getNetworkSize: zero for a missing root user,
otherwise the count of all strict descendants in the tree. -/
def getNetworkSize (s : Store) (userId : String) (fuel : Nat) : Option Nat :=
  match buildReferralTree s userId fuel with
  | none => none
  | some none => some 0
  | some (some tree) => some (countNodes tree)

/-- The loop of getUpline collecting ancestors nearest first, fuelled
because the source loop has no cycle guard. -/
def getUplineLoop (s : Store) (acc : List User) (current : User)
    (fuel : Nat) : Option (List User) :=
  match fuel with
  | 0 => none
  | f + 1 =>
    let acc1 := acc ++ [current]
    match current.referredBy with
    | none => some acc1
    | some code =>
      match getUserByReferralCode s code with
      | none => some acc1
      | some next => getUplineLoop s acc1 next f

/-- Engine operation getUpline: empty for a missing user or a root user,
otherwise the iteratively collected referrer chain. -/
def getUpline (s : Store) (userId : String) (fuel : Nat) : Option (List User) :=
  match getUserById s userId with
  | none => some []
  | some user =>
    match user.referredBy with
    | none => some []
    | some code =>
      match getUserByReferralCode s code with
      | none => some []
      | some current => getUplineLoop s [] current fuel

/-- User record constructed by register in auth.js: lowercased identity
fields, no admin flag, and every earnings field zero. -/
def mkRegisteredUser (uid username email passwordHash referralCode : String)
    (referredBy : Option String) (now : Nat) : User :=
  { id := uid, username := username.toLower, email := email.toLower,
    passwordHash := passwordHash, referralCode := referralCode,
    referredBy := referredBy, isAdmin := false, createdAt := now,
    totalEarnings := 0,
    earningsByLevel := { level1 := 0, level2 := 0, level3 := 0, level4Plus := 0 } }

/-- Structural key of a user: the three fields that drive every chain
traversal of the engine (primary key, own code, referrer code). -/
abbrev UKey := String × String × Option String

/-- Key of a user record. -/
def ukey (u : User) : UKey := (u.id, u.referralCode, u.referredBy)

/-- Traversal-relevant shape of the store: the keys of all users in
store order.  Earnings updates leave the shape unchanged. -/
def shape (s : Store) : List UKey := s.users.map ukey

/-- Code lookup at the shape level, mirroring getUserByReferralCode. -/
def findCode (sh : List UKey) (c : String) : Option UKey :=
  sh.find? (fun k => k.2.1 == c)

/-- One upward step of the referrer graph induced by referredBy. -/
def pstep (sh : List UKey) (k : UKey) : Option UKey :=
  k.2.2.bind (fun c => findCode sh c)

/-- Iterated upward steps from a key; none once the chain has ended. -/
def iterUp (sh : List UKey) (k : UKey) : Nat → Option UKey
  | 0 => some k
  | n + 1 => (iterUp sh k n).bind (pstep sh)

/-- Acyclicity of the referrer graph: no user reaches itself by a
positive number of upward steps. -/
def Acyclic (sh : List UKey) : Prop :=
  ∀ k ∈ sh, ∀ n : Nat, iterUp sh k (n + 1) ≠ some k

/-- Uniqueness of user primary keys, as enforced by the users table. -/
def NodupIds (sh : List UKey) : Prop := (sh.map (fun k => k.1)).Nodup

/-- Uniqueness of referral codes, as enforced by the unique index. -/
def NodupCodes (sh : List UKey) : Prop := (sh.map (fun k => k.2.1)).Nodup

instance (sh : List UKey) : Decidable (NodupIds sh) :=
  inferInstanceAs (Decidable (List.Nodup (sh.map (fun k : UKey => k.1))))

instance (sh : List UKey) : Decidable (NodupCodes sh) :=
  inferInstanceAs (Decidable (List.Nodup (sh.map (fun k : UKey => k.2.1))))

lemma find?_map_ukey (l : List User) (p : UKey → Bool) :
    (l.map ukey).find? p = (l.find? (fun u => p (ukey u))).map ukey := by
  induction l with
  | nil => rfl
  | cons u l ih =>
    simp only [List.map_cons, List.find?_cons]
    cases h : p (ukey u) <;> simp [h, ih]

lemma findCode_shape (s : Store) (c : String) :
    findCode (shape s) c = (getUserByReferralCode s c).map ukey := by
  unfold findCode shape getUserByReferralCode
  rw [find?_map_ukey]
  rfl

lemma getByCode_of_findCode {s : Store} {c : String} {k : UKey}
    (h : findCode (shape s) c = some k) :
    ∃ u, getUserByReferralCode s c = some u ∧ ukey u = k := by
  rw [findCode_shape] at h
  cases hu : getUserByReferralCode s c with
  | none => rw [hu] at h; simp at h
  | some u => rw [hu] at h; simp at h; exact ⟨u, rfl, h⟩

lemma nodupIds_users {s : Store} (h : NodupIds (shape s)) :
    (s.users.map (fun u => u.id)).Nodup := by
  unfold NodupIds shape at h
  rw [List.map_map] at h
  exact h

lemma getUserById_of_mem {s : Store} {u : User} (hids : NodupIds (shape s))
    (hm : u ∈ s.users) : getUserById s u.id = some u := by
  unfold getUserById
  cases hf : s.users.find? (fun v => v.id == u.id) with
  | none =>
    have := List.find?_eq_none.mp hf u hm
    simp at this
  | some v =>
    have hvmem := List.mem_of_find?_eq_some hf
    have hvid := List.find?_some hf
    have hveq : v = u :=
      List.inj_on_of_nodup_map (nodupIds_users hids) hvmem hm (by simpa using hvid)
    rw [hveq]

lemma applyAward_id (u : User) (lvl : Int) (amt : Nat) :
    (applyAward u lvl amt).id = u.id := rfl

lemma ukey_applyAward (u : User) (lvl : Int) (amt : Nat) :
    ukey (applyAward u lvl amt) = ukey u := rfl

lemma updateUser_referrals (s : Store) (u : User) :
    (updateUser s u).referrals = s.referrals := by
  unfold updateUser; split <;> rfl

lemma updateUser_nextRefId (s : Store) (u : User) :
    (updateUser s u).nextRefId = s.nextRefId := by
  unfold updateUser; split <;> rfl

lemma updateUser_now (s : Store) (u : User) :
    (updateUser s u).now = s.now := by
  unfold updateUser; split <;> rfl

lemma awardEarnings_none {s : Store} {rid : String} (uid : String)
    (lvl : Int) (amt : Nat) (h : getUserById s rid = none) :
    awardEarnings s rid uid lvl amt = s := by
  unfold awardEarnings
  rw [h]

lemma awardEarnings_found_users {s : Store} {rid : String} (uid : String)
    (lvl : Int) (amt : Nat) {r : User} (h : getUserById s rid = some r) :
    (awardEarnings s rid uid lvl amt).users =
      (updateUser s (applyAward r lvl amt)).users := by
  unfold awardEarnings
  rw [h]
  rfl

lemma awardEarnings_found_referrals {s : Store} {rid : String} (uid : String)
    (lvl : Int) (amt : Nat) {r : User} (h : getUserById s rid = some r) :
    (awardEarnings s rid uid lvl amt).referrals =
      s.referrals ++ [{ id := s.nextRefId, referrerId := rid, referredId := uid,
                        level := lvl, earnings := amt, createdAt := s.now }] := by
  unfold awardEarnings
  rw [h]
  simp only [addReferral, updateUser_referrals, updateUser_nextRefId, updateUser_now]

lemma awardEarnings_found_nextRefId {s : Store} {rid : String} (uid : String)
    (lvl : Int) (amt : Nat) {r : User} (h : getUserById s rid = some r) :
    (awardEarnings s rid uid lvl amt).nextRefId = s.nextRefId + 1 := by
  unfold awardEarnings
  rw [h]
  simp only [addReferral, updateUser_nextRefId]

lemma awardEarnings_now (s : Store) (rid uid : String) (lvl : Int) (amt : Nat) :
    (awardEarnings s rid uid lvl amt).now = s.now := by
  unfold awardEarnings
  cases h : getUserById s rid with
  | none => rfl
  | some r => simp only [addReferral, updateUser_now]

lemma updateUser_found_users {s : Store} {r r' : User}
    (hid : r'.id = r.id) (hmem : r ∈ s.users) :
    (updateUser s r').users =
      s.users.map (fun v => if v.id == r'.id then r' else v) := by
  unfold updateUser
  have hany : s.users.any (fun v => v.id == r'.id) = true :=
    List.any_eq_true.mpr ⟨r, hmem, by simp [hid]⟩
  rw [if_pos hany]

lemma shape_awardEarnings {s : Store} (rid uid : String) (lvl : Int) (amt : Nat)
    (hids : NodupIds (shape s)) :
    shape (awardEarnings s rid uid lvl amt) = shape s := by
  cases h : getUserById s rid with
  | none => rw [awardEarnings_none uid lvl amt h]
  | some r =>
    have hmem : r ∈ s.users := List.mem_of_find?_eq_some h
    unfold shape
    rw [awardEarnings_found_users uid lvl amt h,
      updateUser_found_users (applyAward_id r lvl amt) hmem, List.map_map]
    apply List.map_congr_left
    intro v hv
    simp only [Function.comp]
    by_cases hvid : v.id = (applyAward r lvl amt).id
    · rw [if_pos (by simp [hvid])]
      have : v = r :=
        List.inj_on_of_nodup_map (nodupIds_users hids) hv hmem
          (by rw [hvid, applyAward_id])
      rw [this, ukey_applyAward]
    · rw [if_neg (by simpa using hvid)]

/-- Ancestor chain above a referredBy value: the successive code lookups
resolve to exactly these keys and the last key is a root with no
further referrer. -/
def CleanChain (sh : List UKey) : Option String → List UKey → Prop
  | none, [] => True
  | some c, k :: rest => findCode sh c = some k ∧ CleanChain sh k.2.2 rest
  | _, _ => False

lemma cleanChain_nil {sh : List UKey} {o : Option String}
    (h : CleanChain sh o []) : o = none := by
  cases o with
  | none => rfl
  | some c => exact h.elim

/-- Reward amount the engine pays at a level: the table entries for
levels one to three and the flat amount beyond. -/
def amountFor (level : Int) : Nat :=
  if level = 1 then rewardStructure.level1
  else if level = 2 then rewardStructure.level2
  else if level = 3 then rewardStructure.level3
  else rewardStructure.level4Plus

lemma amountFor_of_ge4 {lvl : Int} (h : 4 ≤ lvl) :
    amountFor lvl = rewardStructure.level4Plus := by
  unfold amountFor
  rw [if_neg (by omega), if_neg (by omega), if_neg (by omega)]

/-- Referral records written for a chain of referrer keys starting at a
given level, with consecutively generated ids and a fixed timestamp. -/
def mkChainRecords : List UKey → Int → Nat → Nat → String → List Referral
  | [], _, _, _, _ => []
  | k :: rest, lvl, rid, now, nid =>
    { id := rid, referrerId := k.1, referredId := nid, level := lvl,
      earnings := amountFor lvl, createdAt := now } ::
      mkChainRecords rest (lvl + 1) (rid + 1) now nid

lemma level4Loop_clean :
    ∀ (ks : List UKey) (s : Store) (current : User) (lvl : Int)
      (fuel : Nat) (nid : String),
      NodupIds (shape s) →
      CleanChain (shape s) current.referredBy ks →
      4 ≤ lvl →
      ks.length < fuel →
      ∃ s1, level4Loop s nid current lvl fuel = some s1 ∧
        s1.referrals = s.referrals ++ mkChainRecords ks lvl s.nextRefId s.now nid ∧
        shape s1 = shape s ∧
        s1.nextRefId = s.nextRefId + ks.length ∧
        s1.now = s.now := by
  intro ks
  induction ks with
  | nil =>
    intro s current lvl fuel nid _hids hchain _hlvl hfuel
    have hnone : current.referredBy = none := cleanChain_nil hchain
    obtain ⟨f, rfl⟩ : ∃ f, fuel = f + 1 := ⟨fuel - 1, by omega⟩
    refine ⟨s, ?_, by simp [mkChainRecords], rfl, by simp, rfl⟩
    simp [level4Loop, hnone]
  | cons k rest ih =>
    intro s current lvl fuel nid hids hchain hlvl hfuel
    cases hcur : current.referredBy with
    | none => rw [hcur] at hchain; exact hchain.elim
    | some c =>
      rw [hcur] at hchain
      obtain ⟨hfind, hrest⟩ := hchain
      obtain ⟨u, hgbc, hk⟩ := getByCode_of_findCode hfind
      have humem : u ∈ s.users := List.mem_of_find?_eq_some hgbc
      have hgid : getUserById s u.id = some u := getUserById_of_mem hids humem
      obtain ⟨f, rfl⟩ : ∃ f, fuel = f + 1 := ⟨fuel - 1, by omega⟩
      have hflen : rest.length < f := by
        simp only [List.length_cons] at hfuel; omega
      have hshape' :
          shape (awardEarnings s u.id nid lvl rewardStructure.level4Plus) = shape s :=
        shape_awardEarnings _ _ _ _ hids
      have hids' :
          NodupIds (shape (awardEarnings s u.id nid lvl rewardStructure.level4Plus)) := by
        rw [hshape']; exact hids
      have hub : u.referredBy = k.2.2 := by rw [← hk]; rfl
      have hchain' :
          CleanChain (shape (awardEarnings s u.id nid lvl rewardStructure.level4Plus))
            u.referredBy rest := by
        rw [hshape', hub]; exact hrest
      obtain ⟨s1, hloop, hrefs, hsh1, hnext1, hnow1⟩ :=
        ih (awardEarnings s u.id nid lvl rewardStructure.level4Plus) u (lvl + 1) f nid
          hids' hchain' (by omega) hflen
      have hkid : k.1 = u.id := by rw [← hk]; rfl
      have hamt : amountFor lvl = rewardStructure.level4Plus := amountFor_of_ge4 hlvl
      refine ⟨s1, ?_, ?_, ?_, ?_, ?_⟩
      · simp only [level4Loop, hcur, hgbc]
        exact hloop
      · rw [hrefs,
          awardEarnings_found_referrals nid lvl rewardStructure.level4Plus hgid,
          awardEarnings_found_nextRefId nid lvl rewardStructure.level4Plus hgid,
          awardEarnings_now]
        simp [mkChainRecords, hkid, hamt]
      · rw [hsh1, hshape']
      · rw [hnext1,
          awardEarnings_found_nextRefId nid lvl rewardStructure.level4Plus hgid]
        simp only [List.length_cons]
        omega
      · rw [hnow1, awardEarnings_now]

lemma amountFor_one : amountFor 1 = rewardStructure.level1 := by simp [amountFor]

lemma amountFor_two : amountFor 2 = rewardStructure.level2 := by simp [amountFor]

lemma amountFor_three : amountFor 3 = rewardStructure.level3 := by simp [amountFor]

lemma ukey_fst {u : User} {k : UKey} (h : ukey u = k) : k.1 = u.id := by
  rw [← h]; rfl

lemma ukey_thd {u : User} {k : UKey} (h : ukey u = k) : u.referredBy = k.2.2 := by
  rw [← h]; rfl

lemma getByCode_shape_eq {s t : Store} {c : String} (h : shape s = shape t) :
    (getUserByReferralCode s c).map ukey = (getUserByReferralCode t c).map ukey := by
  rw [← findCode_shape, ← findCode_shape, h]

lemma processNewReferral_clean {s : Store} {nid code : String} {ks : List UKey}
    {fuel : Nat}
    (hids : NodupIds (shape s))
    (hnew : (getUserById s nid).isSome)
    (hchain : CleanChain (shape s) (some code) ks)
    (hne : ks ≠ [])
    (hfuel : ks.length ≤ fuel) :
    ∃ s1, processNewReferral s nid code fuel =
        some { store := s1, success := true, error := none } ∧
      s1.referrals = s.referrals ++ mkChainRecords ks 1 s.nextRefId s.now nid ∧
      shape s1 = shape s ∧
      s1.nextRefId = s.nextRefId + ks.length ∧
      s1.now = s.now := by
  obtain ⟨w, hw⟩ := Option.isSome_iff_exists.mp hnew
  match ks, hne with
  | k1 :: ks1, _ =>
  obtain ⟨hfind1, hrest1⟩ := hchain
  obtain ⟨u1, hgbc1, hk1⟩ := getByCode_of_findCode hfind1
  have hmem1 : u1 ∈ s.users := List.mem_of_find?_eq_some hgbc1
  have hgid1 : getUserById s u1.id = some u1 := getUserById_of_mem hids hmem1
  have hsh1 : shape (awardEarnings s u1.id nid 1 rewardStructure.level1) = shape s :=
    shape_awardEarnings _ _ _ _ hids
  have hids1 : NodupIds (shape (awardEarnings s u1.id nid 1 rewardStructure.level1)) := by
    rw [hsh1]; exact hids
  have hrefs1 := awardEarnings_found_referrals nid 1 rewardStructure.level1 hgid1
  have hnext1 := awardEarnings_found_nextRefId nid 1 rewardStructure.level1 hgid1
  have hnow1 := awardEarnings_now s u1.id nid 1 rewardStructure.level1
  have hub1 : u1.referredBy = k1.2.2 := ukey_thd hk1
  cases hk12 : k1.2.2 with
  | none =>
    have hendnil : ks1 = [] := by
      cases ks1 with
      | nil => rfl
      | cons k2 ks2 => rw [hk12] at hrest1; exact hrest1.elim
    subst hendnil
    refine ⟨awardEarnings s u1.id nid 1 rewardStructure.level1, ?_, ?_, hsh1, ?_, ?_⟩
    · simp only [processNewReferral, hw, hgbc1, hub1, hk12]
    · rw [hrefs1]
      simp [mkChainRecords, amountFor_one, ukey_fst hk1]
    · rw [hnext1]; simp
    · exact hnow1
  | some c2 =>
    rw [hk12] at hrest1
    match ks1, hrest1 with
    | k2 :: ks2, hrest1 =>
    obtain ⟨hfind2, hrest2⟩ := hrest1
    have hfind2' : findCode (shape (awardEarnings s u1.id nid 1 rewardStructure.level1)) c2 =
        some k2 := by rw [hsh1]; exact hfind2
    obtain ⟨u2, hgbc2, hk2⟩ := getByCode_of_findCode hfind2'
    have hmem2 : u2 ∈ (awardEarnings s u1.id nid 1 rewardStructure.level1).users :=
      List.mem_of_find?_eq_some hgbc2
    have hgid2 : getUserById (awardEarnings s u1.id nid 1 rewardStructure.level1) u2.id =
        some u2 := getUserById_of_mem hids1 hmem2
    have hsh2 : shape (awardEarnings (awardEarnings s u1.id nid 1 rewardStructure.level1)
        u2.id nid 2 rewardStructure.level2) =
        shape (awardEarnings s u1.id nid 1 rewardStructure.level1) :=
      shape_awardEarnings _ _ _ _ hids1
    have hids2 : NodupIds (shape (awardEarnings
        (awardEarnings s u1.id nid 1 rewardStructure.level1)
        u2.id nid 2 rewardStructure.level2)) := by rw [hsh2, hsh1]; exact hids
    have hrefs2 := awardEarnings_found_referrals nid 2 rewardStructure.level2 hgid2
    have hnext2 := awardEarnings_found_nextRefId nid 2 rewardStructure.level2 hgid2
    have hnow2 := awardEarnings_now (awardEarnings s u1.id nid 1 rewardStructure.level1)
      u2.id nid 2 rewardStructure.level2
    have hub2 : u2.referredBy = k2.2.2 := ukey_thd hk2
    cases hk22 : k2.2.2 with
    | none =>
      have hendnil : ks2 = [] := by
        cases ks2 with
        | nil => rfl
        | cons k3 ks3 => rw [hk22] at hrest2; exact hrest2.elim
      subst hendnil
      refine ⟨awardEarnings (awardEarnings s u1.id nid 1 rewardStructure.level1)
        u2.id nid 2 rewardStructure.level2, ?_, ?_, by rw [hsh2, hsh1], ?_, ?_⟩
      · simp only [processNewReferral, hw, hgbc1, hub1, hk12, hgbc2, hub2, hk22]
      · rw [hrefs2, hrefs1, hnext1, hnow1]
        simp [mkChainRecords, amountFor_one, amountFor_two, ukey_fst hk1, ukey_fst hk2]
      · rw [hnext2, hnext1]; simp
      · rw [hnow2, hnow1]
    | some c3 =>
      rw [hk22] at hrest2
      match ks2, hrest2 with
      | k3 :: ks3, hrest2 =>
      obtain ⟨hfind3, hrest3⟩ := hrest2
      have hfind3' : findCode (shape (awardEarnings
          (awardEarnings s u1.id nid 1 rewardStructure.level1)
          u2.id nid 2 rewardStructure.level2)) c3 = some k3 := by
        rw [hsh2, hsh1]; exact hfind3
      obtain ⟨u3, hgbc3, hk3⟩ := getByCode_of_findCode hfind3'
      have hmem3 : u3 ∈ (awardEarnings (awardEarnings s u1.id nid 1 rewardStructure.level1)
          u2.id nid 2 rewardStructure.level2).users := List.mem_of_find?_eq_some hgbc3
      have hgid3 : getUserById (awardEarnings
          (awardEarnings s u1.id nid 1 rewardStructure.level1)
          u2.id nid 2 rewardStructure.level2) u3.id = some u3 :=
        getUserById_of_mem hids2 hmem3
      have hsh3 : shape (awardEarnings (awardEarnings
          (awardEarnings s u1.id nid 1 rewardStructure.level1)
          u2.id nid 2 rewardStructure.level2) u3.id nid 3 rewardStructure.level3) =
          shape (awardEarnings (awardEarnings s u1.id nid 1 rewardStructure.level1)
          u2.id nid 2 rewardStructure.level2) := shape_awardEarnings _ _ _ _ hids2
      have hids3 : NodupIds (shape (awardEarnings (awardEarnings
          (awardEarnings s u1.id nid 1 rewardStructure.level1)
          u2.id nid 2 rewardStructure.level2) u3.id nid 3 rewardStructure.level3)) := by
        rw [hsh3, hsh2, hsh1]; exact hids
      have hrefs3 := awardEarnings_found_referrals nid 3 rewardStructure.level3 hgid3
      have hnext3 := awardEarnings_found_nextRefId nid 3 rewardStructure.level3 hgid3
      have hnow3 := awardEarnings_now (awardEarnings
        (awardEarnings s u1.id nid 1 rewardStructure.level1)
        u2.id nid 2 rewardStructure.level2) u3.id nid 3 rewardStructure.level3
      have hub3 : u3.referredBy = k3.2.2 := ukey_thd hk3
      have hchain3 : CleanChain (shape (awardEarnings (awardEarnings
          (awardEarnings s u1.id nid 1 rewardStructure.level1)
          u2.id nid 2 rewardStructure.level2) u3.id nid 3 rewardStructure.level3))
          u3.referredBy ks3 := by
        rw [hsh3, hsh2, hsh1, hub3]; exact hrest3
      have hflen : ks3.length < fuel := by
        simp only [List.length_cons] at hfuel; omega
      obtain ⟨s4, hloop, hrefs4, hsh4, hnext4, hnow4⟩ :=
        level4Loop_clean ks3 (awardEarnings (awardEarnings
          (awardEarnings s u1.id nid 1 rewardStructure.level1)
          u2.id nid 2 rewardStructure.level2) u3.id nid 3 rewardStructure.level3)
          u3 4 fuel nid hids3 hchain3 (by omega) hflen
      refine ⟨s4, ?_, ?_, ?_, ?_, ?_⟩
      · simp only [processNewReferral, hw, hgbc1, hub1, hk12, hgbc2, hub2, hk22,
          hgbc3, hloop]
      · rw [hrefs4, hrefs3, hrefs2, hrefs1]
        simp [mkChainRecords, amountFor_one, amountFor_two, amountFor_three,
          ukey_fst hk1, ukey_fst hk2, ukey_fst hk3,
          hnext1, hnow1, hnext2, hnow2, hnext3, hnow3]
      · rw [hsh4, hsh3, hsh2, hsh1]
      · rw [hnext4, hnext3, hnext2, hnext1]
        simp only [List.length_cons]
        omega
      · rw [hnow4, hnow3, hnow2, hnow1]

/-- Level and amount pairs of the flat awards: one per remaining
ancestor, the level numbers strictly increasing from the start value
and every amount the flat table entry. -/
def flatLevels : Nat → Int → List (Int × Nat)
  | 0, _ => []
  | n + 1, lvl => (lvl, rewardStructure.level4Plus) :: flatLevels n (lvl + 1)

lemma mkChainRecords_countP_zero (L : Int) (A : Nat) :
    ∀ (ks : List UKey) (lvl : Int) (rid now : Nat) (nid : String), L < lvl →
    (mkChainRecords ks lvl rid now nid).countP
      (fun r => r.level == L && r.earnings == A) = 0 := by
  intro ks
  induction ks with
  | nil => intro lvl rid now nid _; rfl
  | cons k ksr ih =>
    intro lvl rid now nid h
    simp only [mkChainRecords]
    rw [List.countP_cons_of_neg]
    · exact ih (lvl + 1) (rid + 1) now nid (by omega)
    · simp only [Bool.and_eq_true, beq_iff_eq, not_and]
      intro hl
      exact absurd hl (by omega)

lemma mkChainRecords_filter_ge4 :
    ∀ (ks : List UKey) (lvl : Int) (rid now : Nat) (nid : String), 4 ≤ lvl →
    ((mkChainRecords ks lvl rid now nid).filter (fun r => 4 ≤ r.level)).map
      (fun r => (r.level, r.earnings)) = flatLevels ks.length lvl := by
  intro ks
  induction ks with
  | nil => intro lvl rid now nid _; rfl
  | cons k ksr ih =>
    intro lvl rid now nid h
    simp only [mkChainRecords, List.length_cons, flatLevels]
    rw [List.filter_cons_of_pos (by simpa using h)]
    simp only [List.map_cons]
    rw [ih (lvl + 1) (rid + 1) now nid (by omega), amountFor_of_ge4 h]

/-- C1: for every acyclic referrer chain of length N above the new user,
processNewReferral succeeds and appends exactly the chain records: the
per-level record counts are min(N,1) level-1 awards of 100, min(N-1,1)
level-2 awards of 60, min(N-2,1) level-3 awards of 40, and one flat
award of 20 for each remaining ancestor with strictly increasing
attribution levels starting at 4. -/
theorem processNewReferral_chain_awards
    (s : Store) (nid code : String) (ks : List UKey) (fuel : Nat)
    (hids : NodupIds (shape s))
    (hnew : (getUserById s nid).isSome)
    (hchain : CleanChain (shape s) (some code) ks)
    (hne : ks ≠ [])
    (hfuel : ks.length ≤ fuel) :
    ∃ s1, processNewReferral s nid code fuel =
        some { store := s1, success := true, error := none } ∧
      s1.referrals = s.referrals ++ mkChainRecords ks 1 s.nextRefId s.now nid ∧
      (mkChainRecords ks 1 s.nextRefId s.now nid).countP
          (fun r => r.level == 1 && r.earnings == rewardStructure.level1) =
        min ks.length 1 ∧
      (mkChainRecords ks 1 s.nextRefId s.now nid).countP
          (fun r => r.level == 2 && r.earnings == rewardStructure.level2) =
        min (ks.length - 1) 1 ∧
      (mkChainRecords ks 1 s.nextRefId s.now nid).countP
          (fun r => r.level == 3 && r.earnings == rewardStructure.level3) =
        min (ks.length - 2) 1 ∧
      ((mkChainRecords ks 1 s.nextRefId s.now nid).filter
          (fun r => 4 ≤ r.level)).map (fun r => (r.level, r.earnings)) =
        flatLevels (ks.length - 3) 4 := by
  obtain ⟨s1, hres, hrecs, _, _, _⟩ :=
    processNewReferral_clean hids hnew hchain hne hfuel
  refine ⟨s1, hres, hrecs, ?_, ?_, ?_, ?_⟩
  · rcases ks with _ | ⟨k1, ks1⟩
    · exact absurd rfl hne
    · have hz := mkChainRecords_countP_zero 1 rewardStructure.level1 ks1 2
        (s.nextRefId + 1) s.now nid (by omega)
      simp [mkChainRecords, List.countP_cons, amountFor_one, hz]
  · rcases ks with _ | ⟨k1, _ | ⟨k2, ks2⟩⟩
    · exact absurd rfl hne
    · simp [mkChainRecords, List.countP_cons, amountFor_one]
    · have hz := mkChainRecords_countP_zero 2 rewardStructure.level2 ks2 3
        (s.nextRefId + 1 + 1) s.now nid (by omega)
      simp [mkChainRecords, List.countP_cons, amountFor_one, amountFor_two, hz]
  · rcases ks with _ | ⟨k1, _ | ⟨k2, _ | ⟨k3, ks3⟩⟩⟩
    · exact absurd rfl hne
    · simp [mkChainRecords, List.countP_cons, amountFor_one]
    · simp [mkChainRecords, List.countP_cons, amountFor_one, amountFor_two]
    · have hz := mkChainRecords_countP_zero 3 rewardStructure.level3 ks3 4
        (s.nextRefId + 1 + 1 + 1) s.now nid (by omega)
      simp [mkChainRecords, List.countP_cons, amountFor_one, amountFor_two,
        amountFor_three, hz]
  · rcases ks with _ | ⟨k1, _ | ⟨k2, _ | ⟨k3, ks3⟩⟩⟩
    · exact absurd rfl hne
    · simp [mkChainRecords, List.filter_cons, flatLevels]
    · simp [mkChainRecords, List.filter_cons, flatLevels]
    · have hf := mkChainRecords_filter_ge4 ks3 4
        (s.nextRefId + 1 + 1 + 1) s.now nid (by omega)
      simp [mkChainRecords, List.filter_cons, hf]

/-- Demo identifier constants for the concrete example stores. -/
def idA : String := "a"

def idB : String := "b"

def idC : String := "c"

def idD : String := "d"

def codeA : String := "A"

def codeB : String := "B"

def codeC : String := "C"

def codeD : String := "D"

def demoName : String := "user"

def demoMail : String := "user@x"

def demoHash : String := "h"

/-- Concrete user record with zero earnings used by the example stores. -/
def demoUser (uid code : String) (rb : Option String) : User :=
  { id := uid, username := demoName, email := demoMail, passwordHash := demoHash,
    referralCode := code, referredBy := rb, isAdmin := false, createdAt := 0,
    totalEarnings := 0,
    earningsByLevel := { level1 := 0, level2 := 0, level3 := 0, level4Plus := 0 } }

/-- Example store from the specification: root A, user B referred by A,
user C referred by B, no referral records yet. -/
def exampleStore : Store :=
  { users := [demoUser idA codeA none, demoUser idB codeB (some codeA),
      demoUser idC codeC (some codeB)],
    referrals := [], nextRefId := 0, now := 0 }

/-- Witness: the chain-award theorem applied to the example store with
the concrete two-ancestor chain above user C. -/
theorem processNewReferral_chain_awards_witness :
    ∃ s1, processNewReferral exampleStore idC codeB 2 =
        some { store := s1, success := true, error := none } ∧
      s1.referrals = exampleStore.referrals ++
        mkChainRecords [(idB, codeB, some codeA), (idA, codeA, none)] 1
          exampleStore.nextRefId exampleStore.now idC ∧
      (mkChainRecords [(idB, codeB, some codeA), (idA, codeA, none)] 1
          exampleStore.nextRefId exampleStore.now idC).countP
          (fun r => r.level == 1 && r.earnings == rewardStructure.level1) =
        min ([(idB, codeB, some codeA), (idA, codeA, none)] : List UKey).length 1 ∧
      (mkChainRecords [(idB, codeB, some codeA), (idA, codeA, none)] 1
          exampleStore.nextRefId exampleStore.now idC).countP
          (fun r => r.level == 2 && r.earnings == rewardStructure.level2) =
        min (([(idB, codeB, some codeA), (idA, codeA, none)] : List UKey).length - 1) 1 ∧
      (mkChainRecords [(idB, codeB, some codeA), (idA, codeA, none)] 1
          exampleStore.nextRefId exampleStore.now idC).countP
          (fun r => r.level == 3 && r.earnings == rewardStructure.level3) =
        min (([(idB, codeB, some codeA), (idA, codeA, none)] : List UKey).length - 2) 1 ∧
      ((mkChainRecords [(idB, codeB, some codeA), (idA, codeA, none)] 1
          exampleStore.nextRefId exampleStore.now idC).filter
          (fun r => 4 ≤ r.level)).map (fun r => (r.level, r.earnings)) =
        flatLevels (([(idB, codeB, some codeA), (idA, codeA, none)] : List UKey).length - 3) 4 :=
  processNewReferral_chain_awards exampleStore idC codeB
    [(idB, codeB, some codeA), (idA, codeA, none)] 2
    (by decide) (by decide) ⟨rfl, rfl, trivial⟩ (by decide) (by decide)

/-- Store state expected after the example referral: B gained 100 into
its level1 bucket, A gained 60 into its level2 bucket, and the two
attribution records were appended. -/
def exampleStoreAfter : Store :=
  { users :=
      [{ (demoUser idA codeA none) with
          totalEarnings := 60,
          earningsByLevel := { level1 := 0, level2 := 60, level3 := 0, level4Plus := 0 } },
       { (demoUser idB codeB (some codeA)) with
          totalEarnings := 100,
          earningsByLevel := { level1 := 100, level2 := 0, level3 := 0, level4Plus := 0 } },
       demoUser idC codeC (some codeB)],
    referrals :=
      [{ id := 0, referrerId := idB, referredId := idC, level := 1,
         earnings := 100, createdAt := 0 },
       { id := 1, referrerId := idA, referredId := idC, level := 2,
         earnings := 60, createdAt := 0 }],
    nextRefId := 2, now := 0 }

/-- C2: in the example store (root A, B referred through A's code, C
referred through B's code), processing C's referral via B's code
succeeds, credits B 100 in the level1 bucket, credits A 60 in the
level2 bucket (both starting from zero), and creates exactly two
referral records. -/
theorem processNewReferral_example :
    processNewReferral exampleStore idC codeB 0 =
      some { store := exampleStoreAfter, success := true, error := none } ∧
    exampleStoreAfter.referrals.length = 2 ∧
    (getUserById exampleStore idB).map (fun u => u.totalEarnings) = some 0 ∧
    (getUserById exampleStoreAfter idB).map (fun u => u.totalEarnings) = some 100 ∧
    (getUserById exampleStoreAfter idB).map (fun u => u.earningsByLevel.level1) = some 100 ∧
    (getUserById exampleStore idA).map (fun u => u.totalEarnings) = some 0 ∧
    (getUserById exampleStoreAfter idA).map (fun u => u.totalEarnings) = some 60 ∧
    (getUserById exampleStoreAfter idA).map (fun u => u.earningsByLevel.level2) = some 60 ∧
    exampleStore.referrals.length = 0 := by
  refine ⟨?_, ?_, ?_, ?_, ?_, ?_, ?_, ?_, ?_⟩ <;> rfl

/-- C4: when the new user id or the referral code resolves to no user,
processNewReferral returns a structured failure carrying an error
message and the store is left exactly unchanged, so no referral record
is created and no earnings field moves. -/
theorem processNewReferral_failure
    (s : Store) (nid code : String) (fuel : Nat) :
    (getUserById s nid = none →
      processNewReferral s nid code fuel =
        some { store := s, success := false, error := some msgUserNotFound }) ∧
    (getUserByReferralCode s code = none →
      ∃ m, processNewReferral s nid code fuel =
        some { store := s, success := false, error := some m }) := by
  constructor
  · intro h
    simp [processNewReferral, h]
  · intro h
    cases hu : getUserById s nid with
    | none => exact ⟨msgUserNotFound, by simp [processNewReferral, hu]⟩
    | some w => exact ⟨msgReferrerNotFound, by simp [processNewReferral, hu, h]⟩

/-- Witness: an unknown new user id fails on the example store and the
store comes back unchanged. -/
theorem processNewReferral_failure_witness :
    processNewReferral exampleStore idD codeB 3 =
      some { store := exampleStore, success := false, error := some msgUserNotFound } :=
  (processNewReferral_failure exampleStore idD codeB 3).1 (by decide)

/-- Sum of the four per-level buckets of a user. -/
def sumBuckets (e : EarningsByLevel) : Nat :=
  e.level1 + e.level2 + e.level3 + e.level4Plus

/-- Earnings invariant: the bucket sum equals the aggregate accumulator. -/
def earnInv (u : User) : Prop :=
  sumBuckets u.earningsByLevel = u.totalEarnings

instance (u : User) : Decidable (earnInv u) :=
  inferInstanceAs (Decidable (sumBuckets u.earningsByLevel = u.totalEarnings))

lemma applyAward_total (u : User) (lvl : Int) (amt : Nat) :
    (applyAward u lvl amt).totalEarnings = u.totalEarnings + amt := rfl

lemma applyAward_sumBuckets (u : User) (lvl : Int) (amt : Nat) :
    sumBuckets (applyAward u lvl amt).earningsByLevel =
      sumBuckets u.earningsByLevel + amt := by
  unfold applyAward sumBuckets
  split_ifs <;> simp <;> omega

lemma earnInv_applyAward {u : User} (h : earnInv u) (lvl : Int) (amt : Nat) :
    earnInv (applyAward u lvl amt) := by
  unfold earnInv at h ⊢
  rw [applyAward_sumBuckets, applyAward_total, h]

lemma earnInv_award {s : Store} (h : ∀ u ∈ s.users, earnInv u)
    (rid uid : String) (lvl : Int) (amt : Nat) :
    ∀ u ∈ (awardEarnings s rid uid lvl amt).users, earnInv u := by
  cases hf : getUserById s rid with
  | none => rw [awardEarnings_none uid lvl amt hf]; exact h
  | some r =>
    intro v hv
    rw [awardEarnings_found_users uid lvl amt hf] at hv
    have hrInv : earnInv r := h r (List.mem_of_find?_eq_some hf)
    unfold updateUser at hv
    by_cases hany : (s.users.any (fun w => w.id == (applyAward r lvl amt).id)) = true
    · rw [if_pos hany] at hv
      simp only [List.mem_map] at hv
      obtain ⟨w, hw, hveq⟩ := hv
      by_cases hid : (w.id == (applyAward r lvl amt).id) = true
      · rw [if_pos hid] at hveq
        rw [← hveq]
        exact earnInv_applyAward hrInv lvl amt
      · rw [if_neg hid] at hveq
        rw [← hveq]
        exact h w hw
    · rw [if_neg hany] at hv
      simp only [List.mem_append, List.mem_singleton] at hv
      rcases hv with hv | hv
      · exact h v hv
      · rw [hv]
        exact earnInv_applyAward hrInv lvl amt

lemma earnInv_level4Loop :
    ∀ (fuel : Nat) (s : Store) (current : User) (lvl : Int) (nid : String)
      (s1 : Store),
      (∀ u ∈ s.users, earnInv u) →
      level4Loop s nid current lvl fuel = some s1 →
      ∀ u ∈ s1.users, earnInv u := by
  intro fuel
  induction fuel with
  | zero =>
    intro s current lvl nid s1 h hl
    exact absurd hl (by simp [level4Loop])
  | succ f ih =>
    intro s current lvl nid s1 h hl
    cases hc : current.referredBy with
    | none =>
      simp only [level4Loop, hc, Option.some.injEq] at hl
      rw [← hl]; exact h
    | some c =>
      cases hg : getUserByReferralCode s c with
      | none =>
        simp only [level4Loop, hc, hg, Option.some.injEq] at hl
        rw [← hl]; exact h
      | some next =>
        simp only [level4Loop, hc, hg] at hl
        exact ih _ _ _ _ _ (earnInv_award h _ _ _ _) hl

lemma earnInv_processNewReferral {s : Store} {nid code : String} {fuel : Nat}
    {r : ProcessResult} (h : ∀ u ∈ s.users, earnInv u)
    (hp : processNewReferral s nid code fuel = some r) :
    ∀ u ∈ r.store.users, earnInv u := by
  cases h0 : getUserById s nid with
  | none =>
    simp only [processNewReferral, h0, Option.some.injEq] at hp
    rw [← hp]; exact h
  | some w =>
    cases h1 : getUserByReferralCode s code with
    | none =>
      simp only [processNewReferral, h0, h1, Option.some.injEq] at hp
      rw [← hp]; exact h
    | some l1 =>
      have hA1 := earnInv_award h l1.id nid 1 rewardStructure.level1
      cases h2 : l1.referredBy with
      | none =>
        simp only [processNewReferral, h0, h1, h2, Option.some.injEq] at hp
        rw [← hp]; exact hA1
      | some c2 =>
        cases h3 : getUserByReferralCode
            (awardEarnings s l1.id nid 1 rewardStructure.level1) c2 with
        | none =>
          simp only [processNewReferral, h0, h1, h2, h3, Option.some.injEq] at hp
          rw [← hp]; exact hA1
        | some l2 =>
          have hA2 := earnInv_award hA1 l2.id nid 2 rewardStructure.level2
          cases h4 : l2.referredBy with
          | none =>
            simp only [processNewReferral, h0, h1, h2, h3, h4, Option.some.injEq] at hp
            rw [← hp]; exact hA2
          | some c3 =>
            cases h5 : getUserByReferralCode (awardEarnings
                (awardEarnings s l1.id nid 1 rewardStructure.level1)
                l2.id nid 2 rewardStructure.level2) c3 with
            | none =>
              simp only [processNewReferral, h0, h1, h2, h3, h4, h5,
                Option.some.injEq] at hp
              rw [← hp]; exact hA2
            | some l3 =>
              have hA3 := earnInv_award hA2 l3.id nid 3 rewardStructure.level3
              cases h6 : level4Loop (awardEarnings (awardEarnings
                  (awardEarnings s l1.id nid 1 rewardStructure.level1)
                  l2.id nid 2 rewardStructure.level2)
                  l3.id nid 3 rewardStructure.level3) nid l3 4 fuel with
              | none =>
                simp only [processNewReferral, h0, h1, h2, h3, h4, h5, h6] at hp
                exact Option.noConfusion hp
              | some s4 =>
                simp only [processNewReferral, h0, h1, h2, h3, h4, h5, h6,
                  Option.some.injEq] at hp
                rw [← hp]
                exact earnInv_level4Loop fuel _ _ _ _ _ hA3 h6

/-- C3: for every user the sum of the four earningsByLevel buckets
equals totalEarnings, and the engine preserves this invariant: a
registered user starts with all five earnings fields zero, applyAward
adds the amount to the aggregate and to the bucket sum alike, and both
awardEarnings and processNewReferral keep the invariant holding for
every user in the store. -/
theorem earnings_invariant :
    (∀ uid un em ph rc rb now,
      (mkRegisteredUser uid un em ph rc rb now).totalEarnings = 0 ∧
      (mkRegisteredUser uid un em ph rc rb now).earningsByLevel.level1 = 0 ∧
      (mkRegisteredUser uid un em ph rc rb now).earningsByLevel.level2 = 0 ∧
      (mkRegisteredUser uid un em ph rc rb now).earningsByLevel.level3 = 0 ∧
      (mkRegisteredUser uid un em ph rc rb now).earningsByLevel.level4Plus = 0 ∧
      earnInv (mkRegisteredUser uid un em ph rc rb now)) ∧
    (∀ u lvl amt,
      (applyAward u lvl amt).totalEarnings = u.totalEarnings + amt ∧
      sumBuckets (applyAward u lvl amt).earningsByLevel =
        sumBuckets u.earningsByLevel + amt ∧
      (earnInv u → earnInv (applyAward u lvl amt))) ∧
    (∀ s rid uid lvl amt, (∀ u ∈ s.users, earnInv u) →
      ∀ u ∈ (awardEarnings s rid uid lvl amt).users, earnInv u) ∧
    (∀ s nid code fuel r, (∀ u ∈ s.users, earnInv u) →
      processNewReferral s nid code fuel = some r →
      ∀ u ∈ r.store.users, earnInv u) := by
  refine ⟨?_, ?_, ?_, ?_⟩
  · intro uid un em ph rc rb now
    exact ⟨rfl, rfl, rfl, rfl, rfl, rfl⟩
  · intro u lvl amt
    exact ⟨applyAward_total u lvl amt, applyAward_sumBuckets u lvl amt,
      fun h => earnInv_applyAward h lvl amt⟩
  · intro s rid uid lvl amt h
    exact earnInv_award h rid uid lvl amt
  · intro s nid code fuel r h hp
    exact earnInv_processNewReferral h hp

/-- Witness: the invariant preservation applied at concrete inputs, an
award at level 5 of amount 7 on a fresh demo user. -/
theorem earnings_invariant_witness :
    earnInv (applyAward (demoUser idA codeA none) 5 7) :=
  (earnings_invariant.2.1 (demoUser idA codeA none) 5 7).2.2 (by decide)

lemma find?_update {l : List User} {rid : String} {r r' : User}
    (hf : l.find? (fun v => v.id == rid) = some r) (hid : r'.id = r.id) :
    (l.map (fun v => if v.id == r'.id then r' else v)).find?
      (fun v => v.id == rid) = some r' := by
  have hrid : (r.id == rid) = true := by
    have := List.find?_some hf
    simpa using this
  have hpr : (r'.id == rid) = true := by
    rw [hid]; exact hrid
  induction l with
  | nil => simp at hf
  | cons a l ih =>
    simp only [List.find?_cons] at hf
    cases ha : (a.id == rid) with
    | true =>
      simp only [ha] at hf
      have haeq : a = r := by simpa using hf
      subst haeq
      have hb : (a.id == r'.id) = true := by
        rw [hid]; simp
      have hhead : (if a.id == r'.id then r' else a) = r' := by
        rw [hb]
        simp
      simp only [List.map_cons, hhead, List.find?_cons, hpr]
    | false =>
      simp only [ha] at hf
      have hane : (a.id == r'.id) = false := by
        rw [hid]
        by_contra hc
        simp only [Bool.not_eq_false, beq_iff_eq] at hc
        rw [hc] at ha
        rw [hrid] at ha
        exact Bool.noConfusion ha
      simp only [List.map_cons, List.find?_cons, hane, Bool.false_eq_true,
        if_false, ha]
      exact ih hf

lemma awardEarnings_persists {s : Store} {rid : String} (uid : String)
    (lvl : Int) (amt : Nat) {r : User} (hf : getUserById s rid = some r) :
    getUserById (awardEarnings s rid uid lvl amt) rid =
      some (applyAward r lvl amt) := by
  have hmem : r ∈ s.users := List.mem_of_find?_eq_some hf
  unfold getUserById
  rw [awardEarnings_found_users uid lvl amt hf,
    updateUser_found_users (applyAward_id r lvl amt) hmem]
  exact find?_update hf (applyAward_id r lvl amt)

/-- C7: awardEarnings with an unresolvable referrer id is a perfect
no-op on the store; with a resolvable id it appends exactly one
referral record carrying the attribution data, a freshly generated id
and the current timestamp, increments the counter, persists the
referrer updated by applyAward, which raises the aggregate and the
bucket sum by the amount, and the fresh id differs from every referral
id already in the store whenever those are below the counter. -/
theorem awardEarnings_spec (s : Store) (rid uid : String) (lvl : Int) (amt : Nat) :
    (getUserById s rid = none → awardEarnings s rid uid lvl amt = s) ∧
    (∀ r, getUserById s rid = some r →
      (awardEarnings s rid uid lvl amt).referrals =
        s.referrals ++
          [{ id := s.nextRefId, referrerId := rid, referredId := uid,
             level := lvl, earnings := amt, createdAt := s.now }] ∧
      (awardEarnings s rid uid lvl amt).nextRefId = s.nextRefId + 1 ∧
      (awardEarnings s rid uid lvl amt).now = s.now ∧
      getUserById (awardEarnings s rid uid lvl amt) rid =
        some (applyAward r lvl amt) ∧
      (applyAward r lvl amt).totalEarnings = r.totalEarnings + amt ∧
      sumBuckets (applyAward r lvl amt).earningsByLevel =
        sumBuckets r.earningsByLevel + amt ∧
      ((∀ q ∈ s.referrals, q.id < s.nextRefId) →
        ∀ q ∈ s.referrals, q.id ≠ s.nextRefId)) := by
  constructor
  · intro h
    exact awardEarnings_none uid lvl amt h
  · intro r hf
    refine ⟨awardEarnings_found_referrals uid lvl amt hf,
      awardEarnings_found_nextRefId uid lvl amt hf,
      awardEarnings_now s rid uid lvl amt,
      awardEarnings_persists uid lvl amt hf,
      applyAward_total r lvl amt,
      applyAward_sumBuckets r lvl amt, ?_⟩
    intro hb q hq
    exact Nat.ne_of_lt (hb q hq)

/-- Witness: on the example store an award to the unknown id is exactly
the identity, and an award to B appends the expected record. -/
theorem awardEarnings_spec_witness :
    awardEarnings exampleStore idD idC 1 50 = exampleStore :=
  (awardEarnings_spec exampleStore idD idC 1 50).1 (by decide)

/-- C9: the bucket dispatch is total over the level argument: for any
integer level other than 1, 2 and 3, including zero, negatives and
everything from four up, the amount is credited to the level4Plus
bucket, the other three buckets are untouched, the aggregate grows by
the amount, and awardEarnings persists exactly this update. -/
theorem awardEarnings_level_total (u : User) (lvl : Int) (amt : Nat)
    (h1 : lvl ≠ 1) (h2 : lvl ≠ 2) (h3 : lvl ≠ 3) :
    (applyAward u lvl amt).earningsByLevel.level4Plus =
      u.earningsByLevel.level4Plus + amt ∧
    (applyAward u lvl amt).earningsByLevel.level1 = u.earningsByLevel.level1 ∧
    (applyAward u lvl amt).earningsByLevel.level2 = u.earningsByLevel.level2 ∧
    (applyAward u lvl amt).earningsByLevel.level3 = u.earningsByLevel.level3 ∧
    (applyAward u lvl amt).totalEarnings = u.totalEarnings + amt ∧
    (∀ s rid uid r, getUserById s rid = some r →
      getUserById (awardEarnings s rid uid lvl amt) rid =
        some (applyAward r lvl amt)) := by
  refine ⟨?_, ?_, ?_, ?_, applyAward_total u lvl amt, ?_⟩
  · simp [applyAward, h1, h2, h3]
  · simp [applyAward, h1, h2, h3]
  · simp [applyAward, h1, h2, h3]
  · simp [applyAward, h1, h2, h3]
  · intro s rid uid r hf
    exact awardEarnings_persists uid lvl amt hf

/-- Witness: a negative level credits the level4Plus bucket on a
concrete user. -/
theorem awardEarnings_level_total_witness :
    (applyAward (demoUser idA codeA none) (-5) 7).earningsByLevel.level4Plus =
      (demoUser idA codeA none).earningsByLevel.level4Plus + 7 :=
  (awardEarnings_level_total (demoUser idA codeA none) (-5) 7
    (by decide) (by decide) (by decide)).1

/-- Empty store used by the nonexistent-user query counterexample. -/
def emptyStore : Store := { users := [], referrals := [], nextRefId := 0, now := 0 }

/-- C5 counterexample: for a nonexistent user getReferralStats returns
the null marker propagated from buildReferralTree, which is not a
zero-count statistics object, refuting the claim at this input. -/
theorem getReferralStats_missing_returns_null :
    getReferralStats emptyStore idA 1 = some none ∧
    getReferralStats emptyStore idA 1 ≠
      some (some { directReferrals := 0, totalReferrals := 0, levels := [] }) := by
  constructor
  · rfl
  · decide

/-- C5 amended: for a user id resolving to no user, getUpline returns
the empty list and getNetworkSize returns zero, while getReferralStats
returns the null marker rather than zero counts; none of the three
signals an error. -/
theorem missing_user_queries (s : Store) (uid : String) (fuel : Nat)
    (h : getUserById s uid = none) :
    getUpline s uid fuel = some [] ∧
    getReferralStats s uid (fuel + 1) = some none ∧
    getNetworkSize s uid (fuel + 1) = some 0 := by
  have hb : buildReferralTree s uid (fuel + 1) = some none := by
    simp [buildReferralTree, buildTreeFun, h]
  refine ⟨?_, ?_, ?_⟩
  · simp [getUpline, h]
  · simp [getReferralStats, hb]
  · simp [getNetworkSize, hb]

/-- Witness: the missing-user query behaviour on the empty store. -/
theorem missing_user_queries_witness :
    getUpline emptyStore idB 0 = some [] ∧
    getReferralStats emptyStore idB 1 = some none ∧
    getNetworkSize emptyStore idB 1 = some 0 :=
  missing_user_queries emptyStore idB 0 (by decide)

mutual
/-- Total node count of a referral tree, root included. -/
def nodeCount (t : RTree) : Nat :=
  match t with
  | .node _ children => 1 + nodeCountList children

/-- Sum of nodeCount over a child list. -/
def nodeCountList (ts : List RTree) : Nat :=
  match ts with
  | [] => 0
  | t :: rest => nodeCount t + nodeCountList rest
end

mutual
lemma countNodes_succ (t : RTree) : countNodes t + 1 = nodeCount t := by
  match t with
  | .node u children =>
    simp only [countNodes, nodeCount]
    have := countNodesList_add children
    omega

lemma countNodesList_add (ts : List RTree) :
    countNodesList ts + ts.length = nodeCountList ts := by
  match ts with
  | [] => simp [countNodesList, nodeCountList]
  | t :: rest =>
    simp only [countNodesList, nodeCountList, List.length_cons]
    have h1 := countNodes_succ t
    have h2 := countNodesList_add rest
    omega
end

mutual
lemma countReferrals_total (t : RTree) (level : Nat) (st : Stats)
    (h : 1 ≤ level) :
    (countReferrals t level st).totalReferrals =
      st.totalReferrals + nodeCount t := by
  match t with
  | .node u children =>
    simp only [countReferrals]
    rw [countReferralsList_total children (level + 1) _ (by omega)]
    rw [if_pos (by omega : 0 < level)]
    have hs1 : (if level == 1 then
        { st with directReferrals := st.directReferrals + 1 }
        else st).totalReferrals = st.totalReferrals := by
      cases (level == 1) <;> rfl
    simp only [nodeCount, hs1]
    omega

lemma countReferralsList_total (ts : List RTree) (level : Nat) (st : Stats)
    (h : 1 ≤ level) :
    (countReferralsList ts level st).totalReferrals =
      st.totalReferrals + nodeCountList ts := by
  match ts with
  | [] => rfl
  | t :: rest =>
    simp only [countReferralsList, nodeCountList]
    rw [countReferralsList_total rest level _ h,
      countReferrals_total t level st h]
    omega
end

lemma countReferrals_root (t : RTree) :
    (countReferrals t 0
      { directReferrals := 0, totalReferrals := 0, levels := [] }).totalReferrals =
      countNodes t := by
  match t with
  | .node u children =>
    simp only [countReferrals, countNodes]
    rw [countReferralsList_total children 1 _ (by omega)]
    have := countNodesList_add children
    simp
    omega

/-- C6: whenever getReferralStats yields a statistics object for a user,
getNetworkSize at the same fuel yields exactly its totalReferrals, and
both equal the number of strict descendants in the referral tree (all
nodes except the root). -/
theorem getNetworkSize_eq_totalReferrals (s : Store) (uid : String)
    (fuel : Nat) (st : Stats)
    (h : getReferralStats s uid fuel = some (some st)) :
    getNetworkSize s uid fuel = some st.totalReferrals ∧
    (∀ t, buildReferralTree s uid fuel = some (some t) →
      st.totalReferrals = countNodes t ∧ countNodes t + 1 = nodeCount t) := by
  unfold getReferralStats at h
  cases hb : buildReferralTree s uid fuel with
  | none => rw [hb] at h; exact Option.noConfusion h
  | some ot =>
    cases ot with
    | none =>
      rw [hb] at h
      simp at h
    | some t =>
      rw [hb] at h
      simp only [Option.some.injEq] at h
      constructor
      · unfold getNetworkSize
        rw [hb, ← h, countReferrals_root]
      · intro t2 hb2
        simp only [Option.some.injEq] at hb2
        rw [← hb2, ← h, countReferrals_root]
        exact ⟨rfl, countNodes_succ t⟩

/-- Witness: on the example store the network below root A has size two
and matches the statistics object computed for A. -/
theorem getNetworkSize_eq_totalReferrals_witness :
    getNetworkSize exampleStore idA 5 =
      some ({ directReferrals := 1, totalReferrals := 2,
              levels := [(1, 1), (2, 1)] } : Stats).totalReferrals :=
  (getNetworkSize_eq_totalReferrals exampleStore idA 5
    { directReferrals := 1, totalReferrals := 2, levels := [(1, 1), (2, 1)] }
    (by rfl)).1

lemma iterUp_succ_front (sh : List UKey) (k : UKey) (n : Nat) :
    iterUp sh k (n + 1) = (pstep sh k).bind (fun w => iterUp sh w n) := by
  induction n with
  | zero => cases hp : pstep sh k <;> simp [iterUp, hp]
  | succ m ih =>
    rw [iterUp, ih]
    cases hp : pstep sh k with
    | none => simp
    | some w => simp [iterUp]

lemma iterUp_none_mono {sh : List UKey} {k : UKey} {m n : Nat}
    (hmn : m ≤ n) (h : iterUp sh k m = none) : iterUp sh k n = none := by
  induction n with
  | zero =>
    have hm0 : m = 0 := by omega
    rw [← hm0]; exact h
  | succ p ih =>
    by_cases hm : m = p + 1
    · rw [← hm]; exact h
    · have hmp : m ≤ p := by omega
      rw [iterUp, ih hmp]
      rfl

lemma pstep_mem {sh : List UKey} {k w : UKey} (h : pstep sh k = some w) :
    w ∈ sh := by
  unfold pstep at h
  cases hc : k.2.2 with
  | none => rw [hc] at h; exact Option.noConfusion h
  | some c =>
    rw [hc] at h
    exact List.mem_of_find?_eq_some h

lemma iterUp_mem {sh : List UKey} {k w : UKey} {n : Nat} (hk : k ∈ sh)
    (h : iterUp sh k n = some w) : w ∈ sh := by
  induction n generalizing w with
  | zero =>
    simp only [iterUp, Option.some.injEq] at h
    rw [← h]; exact hk
  | succ m ih =>
    rw [iterUp] at h
    cases hi : iterUp sh k m with
    | none => rw [hi] at h; exact Option.noConfusion h
    | some v =>
      rw [hi] at h
      exact pstep_mem h

lemma iterUp_add (sh : List UKey) (k : UKey) (m n : Nat) :
    iterUp sh k (m + n) = (iterUp sh k m).bind (fun w => iterUp sh w n) := by
  induction n with
  | zero => cases h : iterUp sh k m <;> simp [iterUp, h]
  | succ p ih =>
    rw [show m + (p + 1) = (m + p) + 1 from rfl, iterUp, ih]
    cases h : iterUp sh k m with
    | none => simp
    | some w => simp [iterUp]

lemma chain_stops {sh : List UKey} (hacyc : Acyclic sh) {k : UKey}
    (hk : k ∈ sh) : iterUp sh k sh.length = none := by
  by_contra hne
  have hall : ∀ i, i ≤ sh.length → ∃ w, iterUp sh k i = some w := by
    intro i hi
    cases h : iterUp sh k i with
    | none => exact absurd (iterUp_none_mono hi h) hne
    | some w => exact ⟨w, rfl⟩
  have key : ∀ i d, 0 < d → i + d ≤ sh.length →
      iterUp sh k i ≠ iterUp sh k (i + d) := by
    intro i d hd hle heq
    obtain ⟨w, hw⟩ := hall i (by omega)
    have hwmem : w ∈ sh := iterUp_mem hk hw
    have h2 : iterUp sh k (i + d) = iterUp sh w d := by
      simp [iterUp_add, hw]
    have hcycle : iterUp sh w d = some w := by
      rw [← h2, ← heq, hw]
    obtain ⟨e, rfl⟩ : ∃ e, d = e + 1 := ⟨d - 1, by omega⟩
    exact hacyc w hwmem e hcycle
  have hnd : ((List.range (sh.length + 1)).map
      (fun i => iterUp sh k i)).Nodup := by
    apply List.Nodup.map_on
    · intro i hi j hj hf
      simp only [List.mem_range] at hi hj
      by_contra hne2
      rcases Nat.lt_or_ge i j with hij | hij
      · exact key i (j - i) (by omega) (by omega)
          (by rw [show i + (j - i) = j by omega]; exact hf)
      · exact key j (i - j) (by omega) (by omega)
          (by rw [show j + (i - j) = i by omega]; exact hf.symm)
    · exact List.nodup_range _
  have hsub : ∀ a ∈ (List.range (sh.length + 1)).map
      (fun i => iterUp sh k i), a ∈ sh.map some := by
    intro a ha
    simp only [List.mem_map, List.mem_range] at ha
    obtain ⟨i, hi, rfl⟩ := ha
    obtain ⟨w, hw⟩ := hall i (by omega)
    rw [hw]
    exact List.mem_map_of_mem some (iterUp_mem hk hw)
  have hle := (List.subperm_of_subset hnd hsub).length_le
  simp at hle

lemma shape_length (s : Store) : (shape s).length = s.users.length := by
  simp [shape]

lemma getUplineLoop_some :
    ∀ (n : Nat) (s : Store) (current : User) (acc : List User) (fuel : Nat),
      iterUp (shape s) (ukey current) n = none → n ≤ fuel →
      (getUplineLoop s acc current fuel).isSome := by
  intro n
  induction n with
  | zero =>
    intro s current acc fuel h _
    simp [iterUp] at h
  | succ m ih =>
    intro s current acc fuel h hf
    obtain ⟨g, rfl⟩ : ∃ g, fuel = g + 1 := ⟨fuel - 1, by omega⟩
    cases hc : current.referredBy with
    | none => simp [getUplineLoop, hc]
    | some c =>
      cases hg : getUserByReferralCode s c with
      | none => simp [getUplineLoop, hc, hg]
      | some next =>
        simp only [getUplineLoop, hc, hg]
        have hps : pstep (shape s) (ukey current) = some (ukey next) := by
          show current.referredBy.bind (fun cc => findCode (shape s) cc) =
            some (ukey next)
          rw [hc]
          show findCode (shape s) c = some (ukey next)
          rw [findCode_shape, hg]
          rfl
        apply ih s next _ g
        · rw [iterUp_succ_front, hps] at h
          simpa using h
        · omega

lemma level4Loop_some :
    ∀ (n : Nat) (sh : List UKey) (s : Store) (current : User) (lvl : Int)
      (nid : String) (fuel : Nat),
      shape s = sh → NodupIds sh →
      iterUp sh (ukey current) n = none → n ≤ fuel →
      (level4Loop s nid current lvl fuel).isSome := by
  intro n
  induction n with
  | zero =>
    intro sh s current lvl nid fuel _ _ h _
    simp [iterUp] at h
  | succ m ih =>
    intro sh s current lvl nid fuel hsh hids h hf
    obtain ⟨g, rfl⟩ : ∃ g, fuel = g + 1 := ⟨fuel - 1, by omega⟩
    cases hc : current.referredBy with
    | none => simp [level4Loop, hc]
    | some c =>
      cases hg : getUserByReferralCode s c with
      | none => simp [level4Loop, hc, hg]
      | some next =>
        simp only [level4Loop, hc, hg]
        have hps : pstep sh (ukey current) = some (ukey next) := by
          show current.referredBy.bind (fun cc => findCode sh cc) =
            some (ukey next)
          rw [hc]
          show findCode sh c = some (ukey next)
          rw [← hsh, findCode_shape, hg]
          rfl
        have hshape2 :
            shape (awardEarnings s next.id nid lvl rewardStructure.level4Plus) = sh := by
          rw [shape_awardEarnings _ _ _ _ (by rw [hsh]; exact hids), hsh]
        apply ih sh _ next (lvl + 1) nid g hshape2 hids
        · rw [iterUp_succ_front, hps] at h
          simpa using h
        · omega

lemma findCode_self {s : Store} (hcodes : NodupCodes (shape s)) {u : User}
    (hm : u ∈ s.users) : findCode (shape s) u.referralCode = some (ukey u) := by
  rw [findCode_shape]
  have hcodes2 : (s.users.map (fun w => w.referralCode)).Nodup := by
    unfold NodupCodes shape at hcodes
    rw [List.map_map] at hcodes
    exact hcodes
  unfold getUserByReferralCode
  cases hf : s.users.find? (fun v => v.referralCode == u.referralCode) with
  | none =>
    have := List.find?_eq_none.mp hf u hm
    simp at this
  | some v =>
    have hvmem := List.mem_of_find?_eq_some hf
    have hvid := List.find?_some hf
    have hveq : v = u :=
      List.inj_on_of_nodup_map hcodes2 hvmem hm (by simpa using hvid)
    rw [hveq]
    rfl

lemma buildTreeFun_some (s : Store) (hacyc : Acyclic (shape s))
    (hids : NodupIds (shape s)) (hcodes : NodupCodes (shape s)) :
    ∀ (f : Nat) (u : User), u ∈ s.users →
      iterUp (shape s) (ukey u) (s.users.length - f) ≠ none →
      (buildTreeFun s f u.id).isSome := by
  intro f
  induction f with
  | zero =>
    intro u hu halive
    have hmem : ukey u ∈ shape s := List.mem_map_of_mem ukey hu
    have hstop := chain_stops hacyc hmem
    rw [shape_length] at hstop
    rw [Nat.sub_zero] at halive
    exact absurd hstop halive
  | succ g ih =>
    intro u hu halive
    have hchild : ∀ l, (∀ c ∈ l, c ∈ s.users ∧ c.referredBy = some u.referralCode) →
        (buildChildren (buildTreeFun s g) l).isSome := by
      intro l
      induction l with
      | nil => intro _; simp [buildChildren]
      | cons c rest ihl =>
        intro hl
        have hc1 := hl c (by simp)
        have hrest : ∀ x ∈ rest, x ∈ s.users ∧ x.referredBy = some u.referralCode :=
          fun x hx => hl x (by simp [hx])
        have hps : pstep (shape s) (ukey c) = some (ukey u) := by
          show c.referredBy.bind (fun cc => findCode (shape s) cc) = some (ukey u)
          rw [hc1.2]
          show findCode (shape s) u.referralCode = some (ukey u)
          exact findCode_self hcodes hu
        have hcalive : iterUp (shape s) (ukey c) (s.users.length - g) ≠ none := by
          intro hnone
          have h1 : iterUp (shape s) (ukey c)
              ((s.users.length - (g + 1)) + 1) = none :=
            iterUp_none_mono (by omega) hnone
          rw [iterUp_succ_front, hps] at h1
          exact halive (by simpa using h1)
        have hcsome := ih c hc1.1 hcalive
        obtain ⟨oc, hoc⟩ := Option.isSome_iff_exists.mp hcsome
        have hrsome := ihl hrest
        obtain ⟨lr, hlr⟩ := Option.isSome_iff_exists.mp hrsome
        cases oc with
        | none =>
          simp only [buildChildren, hoc]
          exact hrsome
        | some t =>
          simp [buildChildren, hoc, hlr]
    have hid2 : getUserById s u.id = some u := getUserById_of_mem hids hu
    have hdir : ∀ c ∈ getDirectReferrals s u.id,
        c ∈ s.users ∧ c.referredBy = some u.referralCode := by
      intro c hc
      unfold getDirectReferrals at hc
      rw [hid2] at hc
      simp only [List.mem_filter] at hc
      exact ⟨hc.1, by simpa using hc.2⟩
    have hbc := hchild (getDirectReferrals s u.id) hdir
    obtain ⟨children, hch⟩ := Option.isSome_iff_exists.mp hbc
    simp [buildTreeFun, hid2, hch]

/-- Cyclic store: users A and B refer each other through their codes,
with C referred by A, violating the acyclicity invariant. -/
def cyclicStore : Store :=
  { users := [demoUser idA codeA (some codeB), demoUser idB codeB (some codeA),
      demoUser idC codeC (some codeA)],
    referrals := [], nextRefId := 0, now := 0 }

lemma cyclic_upline_loop :
    ∀ (fuel : Nat) (acc : List User) (cur : User),
      (cur = demoUser idA codeA (some codeB) ∨
        cur = demoUser idB codeB (some codeA)) →
      getUplineLoop cyclicStore acc cur fuel = none := by
  intro fuel
  induction fuel with
  | zero => intro acc cur _; rfl
  | succ g ih =>
    intro acc cur hcur
    rcases hcur with rfl | rfl
    · exact ih _ _ (Or.inr rfl)
    · exact ih _ _ (Or.inl rfl)

lemma cyclic_tree_none :
    ∀ fuel : Nat, buildTreeFun cyclicStore fuel idA = none ∧
      buildTreeFun cyclicStore fuel idB = none := by
  intro fuel
  induction fuel with
  | zero => exact ⟨rfl, rfl⟩
  | succ g ih =>
    constructor
    · have hstep : buildTreeFun cyclicStore (g + 1) idA =
          match buildChildren (buildTreeFun cyclicStore g)
            (getDirectReferrals cyclicStore idA) with
          | none => none
          | some children =>
            some (some (RTree.node (demoUser idA codeA (some codeB)) children)) := rfl
      have hdir : getDirectReferrals cyclicStore idA =
          [demoUser idB codeB (some codeA), demoUser idC codeC (some codeA)] := rfl
      have hchild : buildChildren (buildTreeFun cyclicStore g)
          (getDirectReferrals cyclicStore idA) = none := by
        rw [hdir]
        simp only [buildChildren, demoUser, ih.2]
      rw [hstep, hchild]
    · have hstep : buildTreeFun cyclicStore (g + 1) idB =
          match buildChildren (buildTreeFun cyclicStore g)
            (getDirectReferrals cyclicStore idB) with
          | none => none
          | some children =>
            some (some (RTree.node (demoUser idB codeB (some codeA)) children)) := rfl
      have hdir : getDirectReferrals cyclicStore idB =
          [demoUser idA codeA (some codeB)] := rfl
      have hchild : buildChildren (buildTreeFun cyclicStore g)
          (getDirectReferrals cyclicStore idB) = none := by
        rw [hdir]
        simp only [buildChildren, demoUser, ih.1]
      rw [hstep, hchild]

/-- Shape of the cyclic store. -/
def cyclicShape : List UKey :=
  [(idA, codeA, some codeB), (idB, codeB, some codeA), (idC, codeC, some codeA)]

lemma cyclic_level4Loop :
    ∀ (fuel : Nat) (s : Store) (cur : User) (lvl : Int),
      shape s = cyclicShape →
      (cur.referredBy = some codeA ∨ cur.referredBy = some codeB) →
      level4Loop s idC cur lvl fuel = none := by
  intro fuel
  induction fuel with
  | zero => intro s cur lvl _ _; rfl
  | succ g ih =>
    intro s cur lvl hsh hcur
    have hids : NodupIds (shape s) := by
      rw [hsh]; decide
    rcases hcur with hc | hc
    · have hfind : findCode (shape s) codeA = some (idA, codeA, some codeB) := by
        rw [hsh]; rfl
      obtain ⟨u, hgbc, hk⟩ := getByCode_of_findCode hfind
      have hub : u.referredBy = some codeB := ukey_thd hk
      simp only [level4Loop, hc, hgbc]
      apply ih _ u (lvl + 1) _ (Or.inr hub)
      rw [shape_awardEarnings _ _ _ _ hids, hsh]
    · have hfind : findCode (shape s) codeB = some (idB, codeB, some codeA) := by
        rw [hsh]; rfl
      obtain ⟨u, hgbc, hk⟩ := getByCode_of_findCode hfind
      have hub : u.referredBy = some codeA := ukey_thd hk
      simp only [level4Loop, hc, hgbc]
      apply ih _ u (lvl + 1) _ (Or.inl hub)
      rw [shape_awardEarnings _ _ _ _ hids, hsh]

/-- Store reached after the three fixed-level awards of the cyclic run. -/
def cyclicS3 : Store :=
  awardEarnings (awardEarnings (awardEarnings cyclicStore
    idA idC 1 rewardStructure.level1) idB idC 2 rewardStructure.level2)
    idA idC 3 rewardStructure.level3

/-- Level-3 referrer record fetched during the cyclic run: user A after
its level-1 award. -/
def cyclicL3 : User :=
  { (demoUser idA codeA (some codeB)) with
    totalEarnings := rewardStructure.level1,
    earningsByLevel :=
      { level1 := rewardStructure.level1, level2 := 0, level3 := 0, level4Plus := 0 } }

lemma cyclic_process_none :
    ∀ fuel : Nat, processNewReferral cyclicStore idC codeA fuel = none := by
  intro fuel
  have hb : processNewReferral cyclicStore idC codeA fuel =
      match level4Loop cyclicS3 idC cyclicL3 4 fuel with
      | none => none
      | some s4 => some { store := s4, success := true, error := none } := rfl
  rw [hb, cyclic_level4Loop fuel cyclicS3 cyclicL3 4 (by decide) (Or.inr rfl)]

lemma processNewReferral_some (s : Store) (nid code : String) (fuel : Nat)
    (hids : NodupIds (shape s)) (hacyc : Acyclic (shape s))
    (hfuel : (shape s).length ≤ fuel) :
    (processNewReferral s nid code fuel).isSome := by
  cases h0 : getUserById s nid with
  | none => simp [processNewReferral, h0]
  | some w =>
    cases h1 : getUserByReferralCode s code with
    | none => simp [processNewReferral, h0, h1]
    | some l1 =>
      cases h2 : l1.referredBy with
      | none => simp [processNewReferral, h0, h1, h2]
      | some c2 =>
        cases h3 : getUserByReferralCode
            (awardEarnings s l1.id nid 1 rewardStructure.level1) c2 with
        | none => simp [processNewReferral, h0, h1, h2, h3]
        | some l2 =>
          cases h4 : l2.referredBy with
          | none => simp [processNewReferral, h0, h1, h2, h3, h4]
          | some c3 =>
            cases h5 : getUserByReferralCode (awardEarnings
                (awardEarnings s l1.id nid 1 rewardStructure.level1)
                l2.id nid 2 rewardStructure.level2) c3 with
            | none => simp [processNewReferral, h0, h1, h2, h3, h4, h5]
            | some l3 =>
              have hsh1 : shape (awardEarnings s l1.id nid 1
                  rewardStructure.level1) = shape s :=
                shape_awardEarnings _ _ _ _ hids
              have hids1 : NodupIds (shape (awardEarnings s l1.id nid 1
                  rewardStructure.level1)) := by
                rw [hsh1]; exact hids
              have hsh2 : shape (awardEarnings
                  (awardEarnings s l1.id nid 1 rewardStructure.level1)
                  l2.id nid 2 rewardStructure.level2) = shape s := by
                rw [shape_awardEarnings _ _ _ _ hids1, hsh1]
              have hids2 : NodupIds (shape (awardEarnings
                  (awardEarnings s l1.id nid 1 rewardStructure.level1)
                  l2.id nid 2 rewardStructure.level2)) := by
                rw [hsh2]; exact hids
              have hsh3 : shape (awardEarnings (awardEarnings
                  (awardEarnings s l1.id nid 1 rewardStructure.level1)
                  l2.id nid 2 rewardStructure.level2)
                  l3.id nid 3 rewardStructure.level3) = shape s := by
                rw [shape_awardEarnings _ _ _ _ hids2, hsh2]
              have hl3mem : ukey l3 ∈ shape s := by
                rw [← hsh2]
                exact List.mem_map_of_mem ukey (List.mem_of_find?_eq_some h5)
              have hstop : iterUp (shape s) (ukey l3) (shape s).length = none :=
                chain_stops hacyc hl3mem
              have hloop := level4Loop_some (shape s).length (shape s) _ l3 4 nid
                fuel hsh3 hids hstop hfuel
              obtain ⟨s4, hs4⟩ := Option.isSome_iff_exists.mp hloop
              simp [processNewReferral, h0, h1, h2, h3, h4, h5, hs4]

lemma getUpline_some (s : Store) (uid : String) (fuel : Nat)
    (hacyc : Acyclic (shape s)) (hfuel : (shape s).length ≤ fuel) :
    (getUpline s uid fuel).isSome := by
  cases h0 : getUserById s uid with
  | none => simp [getUpline, h0]
  | some u =>
    cases h1 : u.referredBy with
    | none => simp [getUpline, h0, h1]
    | some c =>
      cases h2 : getUserByReferralCode s c with
      | none => simp [getUpline, h0, h1, h2]
      | some current =>
        simp only [getUpline, h0, h1, h2]
        have hmem : ukey current ∈ shape s :=
          List.mem_map_of_mem ukey (List.mem_of_find?_eq_some h2)
        exact getUplineLoop_some (shape s).length s current [] fuel
          (chain_stops hacyc hmem) hfuel

lemma buildReferralTree_some (s : Store) (uid : String) (fuel : Nat)
    (hids : NodupIds (shape s)) (hcodes : NodupCodes (shape s))
    (hacyc : Acyclic (shape s)) (hfuel : (shape s).length < fuel) :
    (buildReferralTree s uid fuel).isSome := by
  obtain ⟨g, rfl⟩ : ∃ g, fuel = g + 1 := ⟨fuel - 1, by omega⟩
  cases h0 : getUserById s uid with
  | none => simp [buildReferralTree, buildTreeFun, h0]
  | some u =>
    have hmem : u ∈ s.users := List.mem_of_find?_eq_some h0
    have huid : u.id = uid := by
      have := List.find?_some h0
      simpa using this
    have halive : iterUp (shape s) (ukey u)
        (s.users.length - (g + 1)) ≠ none := by
      have hz : s.users.length - (g + 1) = 0 := by
        rw [shape_length] at hfuel; omega
      rw [hz]
      simp [iterUp]
    have := buildTreeFun_some s hacyc hids hcodes (g + 1) u hmem halive
    rw [huid] at this
    exact this

/-- Store with a single root user and no referrer links, used as the
acyclic witness input. -/
def rootOnlyStore : Store :=
  { users := [demoUser idA codeA none], referrals := [], nextRefId := 0, now := 0 }

lemma acyclic_of_no_refs {sh : List UKey} (h : ∀ k ∈ sh, k.2.2 = none) :
    Acyclic sh := by
  intro k hk n hcon
  rw [iterUp_succ_front] at hcon
  have hps : pstep sh k = none := by
    unfold pstep
    rw [h k hk]
    rfl
  rw [hps] at hcon
  exact Option.noConfusion hcon

/-- C8: under acyclicity of the referrer graph the upward chain walk of
processNewReferral, the loop of getUpline and the recursion of
buildReferralTree all come back with a result once the fuel reaches the
store size, for every input; on the cyclic store, all three run out of
any amount of fuel, so without the precondition they need not
terminate. -/
theorem traversal_termination :
    (∀ (s : Store) (nid code : String) (fuel : Nat),
      NodupIds (shape s) → Acyclic (shape s) → (shape s).length ≤ fuel →
      (processNewReferral s nid code fuel).isSome) ∧
    (∀ (s : Store) (uid : String) (fuel : Nat),
      Acyclic (shape s) → (shape s).length ≤ fuel →
      (getUpline s uid fuel).isSome) ∧
    (∀ (s : Store) (uid : String) (fuel : Nat),
      NodupIds (shape s) → NodupCodes (shape s) → Acyclic (shape s) →
      (shape s).length < fuel →
      (buildReferralTree s uid fuel).isSome) ∧
    (∀ fuel : Nat, processNewReferral cyclicStore idC codeA fuel = none) ∧
    (∀ fuel : Nat, getUpline cyclicStore idC fuel = none) ∧
    (∀ fuel : Nat, buildReferralTree cyclicStore idA fuel = none) := by
  refine ⟨?_, ?_, ?_, cyclic_process_none, ?_, ?_⟩
  · intro s nid code fuel hids hacyc hfuel
    exact processNewReferral_some s nid code fuel hids hacyc hfuel
  · intro s uid fuel hacyc hfuel
    exact getUpline_some s uid fuel hacyc hfuel
  · intro s uid fuel hids hcodes hacyc hfuel
    exact buildReferralTree_some s uid fuel hids hcodes hacyc hfuel
  · intro fuel
    exact cyclic_upline_loop fuel [] _ (Or.inl rfl)
  · intro fuel
    exact (cyclic_tree_none fuel).1

/-- Witness: on the acyclic single-root store, all three traversals
return results at fuel one and two. -/
theorem traversal_termination_witness :
    ((processNewReferral rootOnlyStore idA codeA 1).isSome = true) ∧
    ((getUpline rootOnlyStore idA 1).isSome = true) ∧
    ((buildReferralTree rootOnlyStore idA 2).isSome = true) :=
  ⟨traversal_termination.1 rootOnlyStore idA codeA 1 (by decide)
      (acyclic_of_no_refs (by decide)) (by decide),
    traversal_termination.2.1 rootOnlyStore idA 1
      (acyclic_of_no_refs (by decide)) (by decide),
    traversal_termination.2.2.1 rootOnlyStore idA 2 (by decide) (by decide)
      (acyclic_of_no_refs (by decide)) (by decide)⟩

/-- One storage request against the failure schedule: the head says
whether the next IndexedDB request rejects; the tail is the remaining
schedule.  An empty schedule means no request rejects. -/
def opFail : List Bool → Bool × List Bool
  | [] => (false, [])
  | b :: r => (b, r)

/-- Error message carried by a rejected storage request. -/
def msgStorage : String := "StorageError"

/-- awardEarnings against the failure schedule: each of its three
storage requests (the fetch, the put, the add) may reject, the thrown
error propagating to the caller, with all work committed before the
failing request staying committed. -/
def awardEarningsE (s : Store) (sch : List Bool) (referrerId referredUserId : String)
    (level : Int) (amount : Nat) : Store × List Bool × Option String :=
  match opFail sch with
  | (true, sch1) => (s, sch1, some msgStorage)
  | (false, sch1) =>
    match getUserById s referrerId with
    | none => (s, sch1, none)
    | some referrer =>
      match opFail sch1 with
      | (true, sch2) => (s, sch2, some msgStorage)
      | (false, sch2) =>
        let s1 := updateUser s (applyAward referrer level amount)
        match opFail sch2 with
        | (true, sch3) => (s1, sch3, some msgStorage)
        | (false, sch3) =>
          let referral : Referral :=
            { id := s1.nextRefId, referrerId := referrerId,
              referredId := referredUserId, level := level,
              earnings := amount, createdAt := s1.now }
          ({ addReferral s1 referral with nextRefId := s1.nextRefId + 1 }, sch3, none)

/-- The level-four-plus loop against the failure schedule. -/
def level4LoopE (s : Store) (sch : List Bool) (nid : String) (current : User)
    (lvl : Int) : Nat → Option (Store × List Bool × Option String)
  | 0 => none
  | f + 1 =>
    match current.referredBy with
    | none => some (s, sch, none)
    | some c =>
      match opFail sch with
      | (true, sch1) => some (s, sch1, some msgStorage)
      | (false, sch1) =>
        match getUserByReferralCode s c with
        | none => some (s, sch1, none)
        | some next =>
          match awardEarningsE s sch1 next.id nid lvl rewardStructure.level4Plus with
          | (s1, sch2, some m) => some (s1, sch2, some m)
          | (s1, sch2, none) => level4LoopE s1 sch2 nid next (lvl + 1) f

/-- Body of the try block of processNewReferral against the failure
schedule: any thrown error, storage rejection or explicit throw alike,
is returned with the store state reached so far. -/
def processBodyE (s : Store) (sch : List Bool) (nid code : String)
    (fuel : Nat) : Option (Store × List Bool × Option String) :=
  match opFail sch with
  | (true, sch1) => some (s, sch1, some msgStorage)
  | (false, sch1) =>
    match getUserById s nid with
    | none => some (s, sch1, some msgUserNotFound)
    | some _ =>
      match opFail sch1 with
      | (true, sch2) => some (s, sch2, some msgStorage)
      | (false, sch2) =>
        match getUserByReferralCode s code with
        | none => some (s, sch2, some msgReferrerNotFound)
        | some l1 =>
          match awardEarningsE s sch2 l1.id nid 1 rewardStructure.level1 with
          | (s1, sch3, some m) => some (s1, sch3, some m)
          | (s1, sch3, none) =>
            match l1.referredBy with
            | none => some (s1, sch3, none)
            | some c2 =>
              match opFail sch3 with
              | (true, sch4) => some (s1, sch4, some msgStorage)
              | (false, sch4) =>
                match getUserByReferralCode s1 c2 with
                | none => some (s1, sch4, none)
                | some l2 =>
                  match awardEarningsE s1 sch4 l2.id nid 2 rewardStructure.level2 with
                  | (s2, sch5, some m) => some (s2, sch5, some m)
                  | (s2, sch5, none) =>
                    match l2.referredBy with
                    | none => some (s2, sch5, none)
                    | some c3 =>
                      match opFail sch5 with
                      | (true, sch6) => some (s2, sch6, some msgStorage)
                      | (false, sch6) =>
                        match getUserByReferralCode s2 c3 with
                        | none => some (s2, sch6, none)
                        | some l3 =>
                          match awardEarningsE s2 sch6 l3.id nid 3 rewardStructure.level3 with
                          | (s3, sch7, some m) => some (s3, sch7, some m)
                          | (s3, sch7, none) => level4LoopE s3 sch7 nid l3 4 fuel

/-- The catch wrapper of processNewReferral against the failure
schedule: a thrown error of any kind becomes a structured failure
result carrying the message, the store staying as committed. -/
def processNewReferralE (s : Store) (sch : List Bool) (nid code : String)
    (fuel : Nat) : Option ProcessResult :=
  match processBodyE s sch nid code fuel with
  | none => none
  | some (s1, _, none) => some { store := s1, success := true, error := none }
  | some (s1, _, some m) => some { store := s1, success := false, error := some m }

/-- Sum of every user's aggregate earnings, used to state that awards
are never reverted. -/
def totalEarningsSum (s : Store) : Nat :=
  (s.users.map (fun u => u.totalEarnings)).sum

/-- Store evolution along the committed work of one call: the referral
log only grows, total earnings only grow, and the traversal shape is
unchanged. -/
def StoreExtends (s t : Store) : Prop :=
  (∃ l, t.referrals = s.referrals ++ l) ∧
  totalEarningsSum s ≤ totalEarningsSum t ∧
  shape t = shape s

lemma storeExtends_refl (s : Store) : StoreExtends s s :=
  ⟨⟨[], by simp⟩, le_refl _, rfl⟩

lemma storeExtends_trans {s t u : Store} (h1 : StoreExtends s t)
    (h2 : StoreExtends t u) : StoreExtends s u := by
  obtain ⟨⟨l1, hl1⟩, hs1, hsh1⟩ := h1
  obtain ⟨⟨l2, hl2⟩, hs2, hsh2⟩ := h2
  exact ⟨⟨l1 ++ l2, by rw [hl2, hl1, List.append_assoc]⟩, le_trans hs1 hs2,
    by rw [hsh2, hsh1]⟩

lemma totalSum_updateUser_applyAward {s : Store} {rid : String} {r : User}
    (hf : getUserById s rid = some r) (lvl : Int) (amt : Nat)
    (hids : NodupIds (shape s)) :
    totalEarningsSum s ≤ totalEarningsSum (updateUser s (applyAward r lvl amt)) := by
  have hmem : r ∈ s.users := List.mem_of_find?_eq_some hf
  unfold totalEarningsSum
  rw [updateUser_found_users (applyAward_id r lvl amt) hmem, List.map_map]
  apply List.sum_le_sum
  intro v hv
  simp only [Function.comp]
  by_cases hvid : (v.id == (applyAward r lvl amt).id) = true
  · rw [if_pos hvid]
    have hveq : v = r :=
      List.inj_on_of_nodup_map (nodupIds_users hids) hv hmem
        (by simpa [applyAward_id] using hvid)
    rw [hveq, applyAward_total]
    omega
  · rw [if_neg hvid]

lemma shape_updateUser_applyAward {s : Store} {rid : String} {r : User}
    (hf : getUserById s rid = some r) (lvl : Int) (amt : Nat)
    (hids : NodupIds (shape s)) :
    shape (updateUser s (applyAward r lvl amt)) = shape s := by
  have h1 := shape_awardEarnings (s := s) rid rid lvl amt hids
  unfold shape at h1 ⊢
  rw [awardEarnings_found_users rid lvl amt hf] at h1
  exact h1

lemma storeExtends_updateUser_applyAward {s : Store} {rid : String} {r : User}
    (hf : getUserById s rid = some r) (lvl : Int) (amt : Nat)
    (hids : NodupIds (shape s)) :
    StoreExtends s (updateUser s (applyAward r lvl amt)) :=
  ⟨⟨[], by simp [updateUser_referrals]⟩,
    totalSum_updateUser_applyAward hf lvl amt hids,
    shape_updateUser_applyAward hf lvl amt hids⟩

lemma awardEarningsE_extends (s : Store) (sch : List Bool)
    (rid uid : String) (lvl : Int) (amt : Nat) (hids : NodupIds (shape s)) :
    StoreExtends s (awardEarningsE s sch rid uid lvl amt).1 := by
  cases h0 : opFail sch with
  | mk b1 sch1 =>
    cases b1 with
    | true =>
      simp only [awardEarningsE, h0]
      exact storeExtends_refl s
    | false =>
      cases hf : getUserById s rid with
      | none =>
        simp only [awardEarningsE, h0, hf]
        exact storeExtends_refl s
      | some r =>
        cases h1 : opFail sch1 with
        | mk b2 sch2 =>
          cases b2 with
          | true =>
            simp only [awardEarningsE, h0, hf, h1]
            exact storeExtends_refl s
          | false =>
            cases h2 : opFail sch2 with
            | mk b3 sch3 =>
              cases b3 with
              | true =>
                simp only [awardEarningsE, h0, hf, h1, h2]
                exact storeExtends_updateUser_applyAward hf lvl amt hids
              | false =>
                simp only [awardEarningsE, h0, hf, h1, h2]
                obtain ⟨⟨l1, hl1⟩, hs1, hsh1⟩ :=
                  storeExtends_updateUser_applyAward hf lvl amt hids
                refine ⟨⟨l1 ++
                  [{ id := (updateUser s (applyAward r lvl amt)).nextRefId,
                     referrerId := rid, referredId := uid, level := lvl,
                     earnings := amt,
                     createdAt := (updateUser s (applyAward r lvl amt)).now }],
                  ?_⟩, hs1, hsh1⟩
                show (updateUser s (applyAward r lvl amt)).referrals ++
                  [{ id := (updateUser s (applyAward r lvl amt)).nextRefId,
                     referrerId := rid, referredId := uid, level := lvl,
                     earnings := amt,
                     createdAt := (updateUser s (applyAward r lvl amt)).now }] =
                  s.referrals ++ (l1 ++
                  [{ id := (updateUser s (applyAward r lvl amt)).nextRefId,
                     referrerId := rid, referredId := uid, level := lvl,
                     earnings := amt,
                     createdAt := (updateUser s (applyAward r lvl amt)).now }])
                rw [hl1, List.append_assoc]

lemma level4LoopE_extends :
    ∀ (fuel : Nat) (s : Store) (sch : List Bool) (nid : String) (cur : User)
      (lvl : Int) (t : Store) (sch2 : List Bool) (err : Option String),
      NodupIds (shape s) →
      level4LoopE s sch nid cur lvl fuel = some (t, sch2, err) →
      StoreExtends s t := by
  intro fuel
  induction fuel with
  | zero =>
    intro s sch nid cur lvl t sch2 err _ h
    exact Option.noConfusion h
  | succ f ih =>
    intro s sch nid cur lvl t sch2 err hids h
    cases hc : cur.referredBy with
    | none =>
      simp only [level4LoopE, hc, Option.some.injEq, Prod.mk.injEq] at h
      rw [← h.1]
      exact storeExtends_refl s
    | some c =>
      cases h0 : opFail sch with
      | mk b1 sch1 =>
        cases b1 with
        | true =>
          simp only [level4LoopE, hc, h0, Option.some.injEq, Prod.mk.injEq] at h
          rw [← h.1]
          exact storeExtends_refl s
        | false =>
          cases hg : getUserByReferralCode s c with
          | none =>
            simp only [level4LoopE, hc, h0, hg, Option.some.injEq,
              Prod.mk.injEq] at h
            rw [← h.1]
            exact storeExtends_refl s
          | some next =>
            have hext := awardEarningsE_extends s sch1 next.id nid lvl
              rewardStructure.level4Plus hids
            cases hE : awardEarningsE s sch1 next.id nid lvl
                rewardStructure.level4Plus with
            | mk s1 rest =>
              obtain ⟨sch3, err2⟩ := rest
              simp only [hE] at hext
              cases err2 with
              | some m =>
                simp only [level4LoopE, hc, h0, hg, hE, Option.some.injEq,
                  Prod.mk.injEq] at h
                rw [← h.1]
                exact hext
              | none =>
                simp only [level4LoopE, hc, h0, hg, hE] at h
                have hids1 : NodupIds (shape s1) := by
                  rw [hext.2.2]; exact hids
                exact storeExtends_trans hext
                  (ih s1 sch3 nid next (lvl + 1) t sch2 err hids1 h)

lemma processBodyE_extends (s : Store) (sch : List Bool) (nid code : String)
    (fuel : Nat) (t : Store) (schf : List Bool) (err : Option String)
    (hids : NodupIds (shape s))
    (h : processBodyE s sch nid code fuel = some (t, schf, err)) :
    StoreExtends s t := by
  cases h0 : opFail sch with
  | mk b1 sch1 =>
  cases b1 with
  | true =>
    simp only [processBodyE, h0, Option.some.injEq, Prod.mk.injEq] at h
    rw [← h.1]
    exact storeExtends_refl s
  | false =>
  cases hu : getUserById s nid with
  | none =>
    simp only [processBodyE, h0, hu, Option.some.injEq, Prod.mk.injEq] at h
    rw [← h.1]
    exact storeExtends_refl s
  | some w =>
  cases h1 : opFail sch1 with
  | mk b2 sch2 =>
  cases b2 with
  | true =>
    simp only [processBodyE, h0, hu, h1, Option.some.injEq, Prod.mk.injEq] at h
    rw [← h.1]
    exact storeExtends_refl s
  | false =>
  cases hg1 : getUserByReferralCode s code with
  | none =>
    simp only [processBodyE, h0, hu, h1, hg1, Option.some.injEq,
      Prod.mk.injEq] at h
    rw [← h.1]
    exact storeExtends_refl s
  | some l1 =>
  have hextA := awardEarningsE_extends s sch2 l1.id nid 1
    rewardStructure.level1 hids
  cases hE1 : awardEarningsE s sch2 l1.id nid 1 rewardStructure.level1 with
  | mk s1 restA =>
  obtain ⟨sch3, errA⟩ := restA
  simp only [hE1] at hextA
  have hids1 : NodupIds (shape s1) := by rw [hextA.2.2]; exact hids
  cases errA with
  | some m =>
    simp only [processBodyE, h0, hu, h1, hg1, hE1, Option.some.injEq,
      Prod.mk.injEq] at h
    rw [← h.1]
    exact hextA
  | none =>
  cases hc2 : l1.referredBy with
  | none =>
    simp only [processBodyE, h0, hu, h1, hg1, hE1, hc2, Option.some.injEq,
      Prod.mk.injEq] at h
    rw [← h.1]
    exact hextA
  | some c2 =>
  cases h2 : opFail sch3 with
  | mk b3 sch4 =>
  cases b3 with
  | true =>
    simp only [processBodyE, h0, hu, h1, hg1, hE1, hc2, h2, Option.some.injEq,
      Prod.mk.injEq] at h
    rw [← h.1]
    exact hextA
  | false =>
  cases hg2 : getUserByReferralCode s1 c2 with
  | none =>
    simp only [processBodyE, h0, hu, h1, hg1, hE1, hc2, h2, hg2,
      Option.some.injEq, Prod.mk.injEq] at h
    rw [← h.1]
    exact hextA
  | some l2 =>
  have hextB := awardEarningsE_extends s1 sch4 l2.id nid 2
    rewardStructure.level2 hids1
  cases hE2 : awardEarningsE s1 sch4 l2.id nid 2 rewardStructure.level2 with
  | mk s2 restB =>
  obtain ⟨sch5, errB⟩ := restB
  simp only [hE2] at hextB
  have hextAB := storeExtends_trans hextA hextB
  have hids2 : NodupIds (shape s2) := by rw [hextB.2.2]; exact hids1
  cases errB with
  | some m =>
    simp only [processBodyE, h0, hu, h1, hg1, hE1, hc2, h2, hg2, hE2,
      Option.some.injEq, Prod.mk.injEq] at h
    rw [← h.1]
    exact hextAB
  | none =>
  cases hc3 : l2.referredBy with
  | none =>
    simp only [processBodyE, h0, hu, h1, hg1, hE1, hc2, h2, hg2, hE2, hc3,
      Option.some.injEq, Prod.mk.injEq] at h
    rw [← h.1]
    exact hextAB
  | some c3 =>
  cases h3 : opFail sch5 with
  | mk b4 sch6 =>
  cases b4 with
  | true =>
    simp only [processBodyE, h0, hu, h1, hg1, hE1, hc2, h2, hg2, hE2, hc3, h3,
      Option.some.injEq, Prod.mk.injEq] at h
    rw [← h.1]
    exact hextAB
  | false =>
  cases hg3 : getUserByReferralCode s2 c3 with
  | none =>
    simp only [processBodyE, h0, hu, h1, hg1, hE1, hc2, h2, hg2, hE2, hc3, h3,
      hg3, Option.some.injEq, Prod.mk.injEq] at h
    rw [← h.1]
    exact hextAB
  | some l3 =>
  have hextC := awardEarningsE_extends s2 sch6 l3.id nid 3
    rewardStructure.level3 hids2
  cases hE3 : awardEarningsE s2 sch6 l3.id nid 3 rewardStructure.level3 with
  | mk s3 restC =>
  obtain ⟨sch7, errC⟩ := restC
  simp only [hE3] at hextC
  have hextABC := storeExtends_trans hextAB hextC
  have hids3 : NodupIds (shape s3) := by rw [hextC.2.2]; exact hids2
  cases errC with
  | some m =>
    simp only [processBodyE, h0, hu, h1, hg1, hE1, hc2, h2, hg2, hE2, hc3, h3,
      hg3, hE3, Option.some.injEq, Prod.mk.injEq] at h
    rw [← h.1]
    exact hextABC
  | none =>
    simp only [processBodyE, h0, hu, h1, hg1, hE1, hc2, h2, hg2, hE2, hc3, h3,
      hg3, hE3] at h
    exact storeExtends_trans hextABC
      (level4LoopE_extends fuel s3 sch7 nid l3 4 t schf err hids3 h)

/-- C10: under storage-operation failures at arbitrary points, a
completed processNewReferral call never propagates an exception: its
result is either success with no error or failure carrying an error
message, and in every case the committed work stays committed, the
referral log only extended and the total earnings only grown, with no
rollback. -/
theorem processNewReferralE_no_throw (s : Store) (sch : List Bool)
    (nid code : String) (fuel : Nat) (r : ProcessResult)
    (hids : NodupIds (shape s))
    (h : processNewReferralE s sch nid code fuel = some r) :
    ((r.success = true ∧ r.error = none) ∨
      (r.success = false ∧ ∃ m, r.error = some m)) ∧
    (∃ l, r.store.referrals = s.referrals ++ l) ∧
    totalEarningsSum s ≤ totalEarningsSum r.store := by
  cases hb : processBodyE s sch nid code fuel with
  | none =>
    simp only [processNewReferralE, hb] at h
    exact Option.noConfusion h
  | some trip =>
    obtain ⟨t, sch2, err⟩ := trip
    have hext := processBodyE_extends s sch nid code fuel t sch2 err hids hb
    cases err with
    | none =>
      simp only [processNewReferralE, hb, Option.some.injEq] at h
      rw [← h]
      exact ⟨Or.inl ⟨rfl, rfl⟩, hext.1, hext.2.1⟩
    | some m =>
      simp only [processNewReferralE, hb, Option.some.injEq] at h
      rw [← h]
      exact ⟨Or.inr ⟨rfl, m, rfl⟩, hext.1, hext.2.1⟩

/-- Failure schedule rejecting the sixth storage request: the level-2
referrer lookup of the example run fails mid-chain. -/
def schedDemo : List Bool := [false, false, false, false, false, true]

/-- Store committed before the injected mid-chain failure: the level-1
award to B has been fully persisted. -/
def storeAfterL1 : Store :=
  awardEarnings exampleStore idB idC 1 rewardStructure.level1

/-- Witness: a mid-chain storage failure on the example store yields a
structured failure whose store keeps the already committed level-1
award. -/
theorem processNewReferralE_no_throw_witness :
    ((((false : Bool) = true) ∧ ((some msgStorage : Option String) = none)) ∨
      (((false : Bool) = false) ∧ ∃ m, (some msgStorage : Option String) = some m)) ∧
    (∃ l, storeAfterL1.referrals = exampleStore.referrals ++ l) ∧
    totalEarningsSum exampleStore ≤ totalEarningsSum storeAfterL1 :=
  processNewReferralE_no_throw exampleStore schedDemo idC codeB 0
    { store := storeAfterL1, success := false, error := some msgStorage }
    (by decide) (by rfl)
